import Mathlib

/-!
# Verification of the elevator-simulation core

Shallow embedding of the repository's three source files
(`entities.py`, `algorithms.py`, `simulation.py`) and proofs of the
specification claims about them.

Modelling conventions:
* Python `int` is `Int` (arbitrary precision, no overflow).
* A Python `dict` is an association list `List (key × value)` in insertion
  order; lookups find the first matching key (a real dict has distinct keys).
* Code that can raise an exception (`KeyError`, `ValueError` from `max([])`,
  `IndexError`, `int(...)` parse failures) is `Option`-valued; `none` models
  a raised exception.
* `random.randint(a, b)` is modelled by an adversarial oracle value `r`
  reduced into `[a, b]` via `randint a b r`; every outcome in the range is
  reachable and no outcome outside it is.
* The `Visualizer` is not part of `src/`.  Modelled from the spec: the
  visualization hook is a one-way notification, excluded from the core,
  never feeding state back into the engine; it is therefore omitted
  (a no-op) in this embedding.
-/

/-- `entities.Person`: `start`/`target` floors and accumulated `wait_time`.
(`get_anger_level` is not needed by any claim.) -/
structure Person where
  start : Int
  target : Int
  wait_time : Int
deriving Repr, DecidableEq

/-- `entities.Elevator`: ordered passenger list, current floor, capacity. -/
structure Elevator where
  passengers : List Person
  current_floor : Int
  max_capacity : Int
deriving Repr, DecidableEq

/-- `Elevator.__init__(capacity)`: empty, at floor 1. -/
def Elevator.init (capacity : Int) : Elevator :=
  { passengers := [], current_floor := 1, max_capacity := capacity }

/-- `Elevator.is_empty`. -/
def Elevator.isEmpty (e : Elevator) : Bool :=
  e.passengers.length == 0

/-- `Elevator.is_full`: `len(passengers) == max_capacity`. -/
def Elevator.isFull (e : Elevator) : Bool :=
  (e.passengers.length : Int) == e.max_capacity

/-- `Elevator.get_direction(target)`: `1` if above, `-1` if below, else `0`. -/
def Elevator.get_direction (e : Elevator) (target : Int) : Int :=
  if target > e.current_floor then 1
  else if target < e.current_floor then -1
  else 0

/-- `Elevator.move(direction)`: add the direction to the current floor. -/
def Elevator.move (e : Elevator) (direction : Int) : Elevator :=
  { e with current_floor := e.current_floor + direction }

/-- `Elevator.load(passenger)`: append to the passenger list. -/
def Elevator.load (e : Elevator) (p : Person) : Elevator :=
  { e with passengers := e.passengers ++ [p] }

/-- `algorithms.Direction` enum. -/
inductive Direction where
  | up
  | stay
  | down
deriving Repr, DecidableEq

/-- `MovingAlgorithm._options`: dictionary from `{1, 0, -1}` to `Direction`;
any other key raises `KeyError` (`none`). -/
def optionsMap (value : Int) : Option Direction :=
  if value = 1 then some Direction.up
  else if value = 0 then some Direction.stay
  else if value = -1 then some Direction.down
  else none

/-- The floor-indexed waiting registry: a Python dict in insertion order. -/
abbrev Waiting : Type := List (Int × List Person)

/-- Dict lookup `waiting[floor]` (first matching key; `none` = `KeyError`). -/
def lookupFloor (w : Waiting) (f : Int) : Option (List Person) :=
  match w with
  | [] => none
  | (k, v) :: rest => if k = f then some v else lookupFloor rest f

/-- `waiting[floor].append(p)`: append to the value at the first matching
key, leaving everything else unchanged. -/
def appendAt (w : Waiting) (f : Int) (p : Person) : Waiting :=
  match w with
  | [] => []
  | (k, v) :: rest =>
      if k = f then (k, v ++ [p]) :: rest else (k, v) :: appendAt rest f p

/-- Overwrite the value stored at the first occurrence of key `f`
(models in-place mutation of the list object `waiting[floor]`). -/
def setAt (w : Waiting) (f : Int) (v : List Person) : Waiting :=
  match w with
  | [] => []
  | (k, old) :: rest =>
      if k = f then (k, v) :: rest else (k, old) :: setAt rest f v

/-- The key list `[*waiting]` of the registry dict. -/
def keysOf (w : Waiting) : List Int :=
  w.map Prod.fst

/-- `MovingAlgorithm._is_people_waiting`: some floor has a non-empty list. -/
def isPeopleWaiting (w : Waiting) : Bool :=
  w.any (fun kv => !kv.2.isEmpty)

/-- Python `max([*waiting])` over the dict keys; raises (`none`) on an
empty dict. -/
def maxKeys (w : Waiting) : Option Int :=
  match w with
  | [] => none
  | (k, _) :: rest => some (rest.foldl (fun a kv => max a kv.1) k)

/-- `PushyPassenger._get_lowest_floor_with_people`: start from the maximum
key, then take any key with a non-empty list that is strictly smaller. -/
def lowestFloorWithPeople (w : Waiting) : Option Int :=
  match maxKeys w with
  | none => none
  | some m =>
      some (w.foldl
        (fun acc kv => if kv.2 ≠ [] ∧ kv.1 < acc then kv.1 else acc) m)

/-- One step of the closest-floor fold shared by both `ShortSighted`
helpers: strictly closer wins, equidistant resolves to the lower floor.
Absolute distance `abs(x - y)` is modelled with `Int.natAbs`. -/
def closerStep (current acc f : Int) : Int :=
  if (f - current).natAbs < (acc - current).natAbs then f
  else if (f - current).natAbs = (acc - current).natAbs then min f acc
  else acc

/-- `ShortSighted._get_closest_waiting_floor`: fold `closerStep` over the
keys whose lists are non-empty, in dict order; `none` models the
`IndexError` on `floors_with_waiting[0]` when no floor has people. -/
def closestWaitingFloor (current : Int) (w : Waiting) : Option Int :=
  match (w.filter (fun kv => !kv.2.isEmpty)).map Prod.fst with
  | [] => none
  | c :: rest => some (rest.foldl (closerStep current) c)

/-- `ShortSighted._get_closest_target_floor`: fold `closerStep` over the
passenger targets; `none` models the `IndexError` on `passengers[0]` for an
empty elevator. -/
def closestTargetFloor (e : Elevator) : Option Int :=
  match e.passengers.map Person.target with
  | [] => none
  | t :: rest => some (rest.foldl (closerStep e.current_floor) t)

/-- Option-valued map over a list: `none` as soon as one element fails
(models a Python loop that can raise inside its body). -/
def mapOpt (f : α → Option β) : List α → Option (List β)
  | [] => some []
  | a :: as =>
      match f a, mapOpt f as with
      | some b, some bs => some (b :: bs)
      | _, _ => none

/-- Indexed variant of `mapOpt` (the index numbers the loop iterations). -/
def mapOptIdx (f : Nat → α → Option β) : Nat → List α → Option (List β)
  | _, [] => some []
  | i, a :: as =>
      match f i a, mapOptIdx f (i + 1) as with
      | some b, some bs => some (b :: bs)
      | _, _ => none

/-- `random.randint(a, b)` driven by an oracle value `r`: the result is
`a + (r - a) mod (b - a + 1)`, which for `a ≤ b` ranges over exactly
`[a, b]` as `r` varies.  The oracle stands for the random source. -/
def randint (a b r : Int) : Int :=
  a + (r - a) % (b - a + 1)

/-- `RandomAlgorithm.move_elevators`: at floor 1 choose from
`{STAY, UP}`, at `max_floor` from `{DOWN, STAY}`, otherwise from
`{DOWN, STAY, UP}`.  `oracle i` is the random draw for the `i`-th
elevator this round. -/
def randomMoveElevators (oracle : Nat → Int) (elevators : List Elevator)
    (max_floor : Int) : Option (List Direction) :=
  mapOptIdx
    (fun i e =>
      if e.current_floor = 1 then optionsMap (randint 0 1 (oracle i))
      else if e.current_floor = max_floor then
        optionsMap (randint (-1) 0 (oracle i))
      else optionsMap (randint (-1) 1 (oracle i)))
    0 elevators

/-- The per-elevator body of `PushyPassenger.move_elevators`. -/
def pushyOne (people_waiting : Bool) (lowest_floor : Int) (e : Elevator) :
    Option Direction :=
  if e.isEmpty then
    if people_waiting then optionsMap (e.get_direction lowest_floor)
    else optionsMap 0
  else
    match e.passengers.head? with
    | none => none
    | some p => optionsMap (e.get_direction p.target)

/-- `PushyPassenger.move_elevators`: `_get_lowest_floor_with_people` is
computed once, before the loop, so an empty registry dict raises
(`none`) even if no elevator would use the result. -/
def pushyMoveElevators (elevators : List Elevator) (waiting : Waiting)
    (_max_floor : Int) : Option (List Direction) :=
  let people_waiting := isPeopleWaiting waiting
  match lowestFloorWithPeople waiting with
  | none => none
  | some lowest => mapOpt (pushyOne people_waiting lowest) elevators

/-- The per-elevator body of `ShortSighted.move_elevators`. -/
def shortSightedOne (people_waiting : Bool) (waiting : Waiting)
    (e : Elevator) : Option Direction :=
  if e.isEmpty then
    if people_waiting then
      match closestWaitingFloor e.current_floor waiting with
      | none => none
      | some closest => optionsMap (e.get_direction closest)
    else optionsMap 0
  else
    match closestTargetFloor e with
    | none => none
    | some target => optionsMap (e.get_direction target)

/-- `ShortSighted.move_elevators`. -/
def shortSightedMoveElevators (elevators : List Elevator)
    (waiting : Waiting) (_max_floor : Int) : Option (List Direction) :=
  mapOpt (shortSightedOne (isPeopleWaiting waiting) waiting) elevators

/-- The three `MovingAlgorithm` variants defined in `algorithms.py`.
`randomAlg` carries its random oracle, indexed by round and elevator. -/
inductive Policy where
  | randomAlg (oracle : Nat → Nat → Int)
  | pushyPassenger
  | shortSighted

/-- Dispatch `move_elevators` for a policy (`round_num` feeds the random
oracle; the other two variants ignore it). -/
def Policy.move (p : Policy) (round_num : Nat) (elevators : List Elevator)
    (waiting : Waiting) (max_floor : Int) : Option (List Direction) :=
  match p with
  | .randomAlg oracle => randomMoveElevators (oracle round_num) elevators max_floor
  | .pushyPassenger => pushyMoveElevators elevators waiting max_floor
  | .shortSighted => shortSightedMoveElevators elevators waiting max_floor

/-- The mutable state of `simulation.Simulation` (attributes `waiting`,
`elevators`, and the `stats` accumulator dictionary). -/
structure SimState where
  waiting : Waiting
  elevators : List Elevator
  total_people : Nat
  total_completed : Nat
  times : List Int
deriving Repr, DecidableEq

/-- `Simulation.__init__`: `num_elevators` elevators at floor 1, a registry
entry `floor -> []` for every floor in `range(1, num_floors + 1)` (empty
when `num_floors < 1`, matching Python `range`), zeroed counters.
No validation of any configuration field is performed. -/
def simInit (num_floors : Int) (num_elevators : Nat) (capacity : Int) :
    SimState :=
  { waiting := (List.range num_floors.toNat).map
      (fun (i : Nat) => ((i : Int) + 1, ([] : List Person))),
    elevators := List.replicate num_elevators (Elevator.init capacity),
    total_people := 0,
    total_completed := 0,
    times := [] }

/-- The body of the inner loop of `Simulation._generate_arrivals`: bump
`total_people` and append the person to `waiting[floor]` (a missing
registry key raises `KeyError`, i.e. `none`). -/
def addPerson (floor : Int) (st : SimState) (p : Person) : Option SimState :=
  match lookupFloor st.waiting floor with
  | none => none
  | some _ => some { st with
      total_people := st.total_people + 1,
      waiting := appendAt st.waiting floor p }

/-- The inner loop of `_generate_arrivals` over one floor's new people. -/
def addPersonsAtFloor (st : SimState) (kv : Int × List Person) :
    Option SimState :=
  kv.2.foldlM (addPerson kv.1) st

/-- `Simulation._generate_arrivals`: iterate the arrival dict's keys in
order, appending each new person and counting them. -/
def generateArrivalsState (arrivals : Waiting) (s : SimState) :
    Option SimState :=
  arrivals.foldlM addPersonsAtFloor s

/-- One step of the `for passenger in reversed(elevator.passengers)` loop
of `Simulation._handle_leaving`, at iterator index `i` (counting down).
When the passenger at index `i` has reached the current floor it is
removed at index `i`: `list.remove` deletes the first element equal to
the visited object, and Python object equality for `Person` is identity,
so the deleted element is exactly the visited one.  The second component
collects the recorded `wait_time`s in visit order. -/
def leavingIdx (floor : Int) : List Person → Nat → List Person × List Int
  | l, 0 =>
      match l.head? with
      | none => (l, [])
      | some p =>
          if p.target = floor then (l.eraseIdx 0, [p.wait_time]) else (l, [])
  | l, i + 1 =>
      match l.get? (i + 1) with
      | none => (l, [])
      | some p =>
          if p.target = floor then
            match leavingIdx floor (l.eraseIdx (i + 1)) i with
            | (r, ts) => (r, p.wait_time :: ts)
          else leavingIdx floor l i


/-- Disembark handling for one elevator: run the reversed-iteration loop
starting at the last index, returning the remaining passengers and the
recorded wait times in visit order. -/
def unloadAll (floor : Int) (ps : List Person) : List Person × List Int :=
  leavingIdx floor ps (ps.length - 1)

/-- Disembark handling across the elevator list, in list order; returns
the updated elevators and all recorded wait times in append order. -/
def leavingElevators : List Elevator → List Elevator × List Int
  | [] => ([], [])
  | e :: rest =>
      let pr := unloadAll e.current_floor e.passengers
      let er := leavingElevators rest
      ({ e with passengers := pr.1 } :: er.1, pr.2 ++ er.2)

/-- `Simulation._handle_leaving`: each removal bumps `total_completed` and
appends the passenger's `wait_time` to `stats["times"]`; the net effect is
one bump per recorded time. -/
def handleLeavingState (s : SimState) : SimState :=
  let r := leavingElevators s.elevators
  { s with elevators := r.1,
           total_completed := s.total_completed + r.2.length,
           times := s.times ++ r.2 }

/-- The `while not elevator.is_full() and len(people_on_floor) != 0` loop
of `Simulation._handle_boarding`: pop the front person and load, until the
elevator is full or the floor queue is empty. -/
def boardLoop : Elevator → List Person → Elevator × List Person
  | e, [] => (e, [])
  | e, p :: rest =>
      if e.isFull then (e, p :: rest) else boardLoop (e.load p) rest

/-- `Simulation._handle_boarding` over the elevator list in order; the
registry entry for the elevator's floor is mutated in place, so a later
elevator on the same floor sees only the people left behind.  A floor
missing from the registry raises `KeyError` (`none`). -/
def boardElevators : List Elevator → Waiting → Option (List Elevator × Waiting)
  | [], w => some ([], w)
  | e :: rest, w =>
      match lookupFloor w e.current_floor with
      | none => none
      | some people =>
          let br := boardLoop e people
          match boardElevators rest (setAt w e.current_floor br.2) with
          | none => none
          | some (es, w2) => some (br.1 :: es, w2)

/-- `Simulation._handle_boarding` as a state transformer. -/
def handleBoardingState (s : SimState) : Option SimState :=
  match boardElevators s.elevators s.waiting with
  | none => none
  | some (es, w) => some { s with elevators := es, waiting := w }

/-- Apply one returned `Direction` to one elevator: `UP` is `move(1)`,
`DOWN` is `move(-1)`, `STAY` leaves the elevator where it is. -/
def applyDirection (e : Elevator) (d : Direction) : Elevator :=
  match d with
  | .up => e.move 1
  | .down => e.move (-1)
  | .stay => e

/-- `zip(self.elevators, directions)` application: pairs are consumed in
order and any unpaired tail is left unchanged. -/
def applyDirections : List Elevator → List Direction → List Elevator
  | [], _ => []
  | es, [] => es
  | e :: es, d :: ds => applyDirection e d :: applyDirections es ds

/-- `Simulation._move_elevators`: query the moving algorithm once, then
apply each direction. -/
def moveElevatorsState
    (moveFn : Nat → List Elevator → Waiting → Int → Option (List Direction))
    (round_num : Nat) (num_floors : Int) (s : SimState) : Option SimState :=
  match moveFn round_num s.elevators s.waiting num_floors with
  | none => none
  | some ds => some { s with elevators := applyDirections s.elevators ds }

/-- Increment one person's `wait_time`. -/
def agePerson (p : Person) : Person :=
  { p with wait_time := p.wait_time + 1 }

/-- `Simulation._increase_all_wait_times`: age everyone still waiting on a
floor, then everyone aboard an elevator. -/
def increaseAllWaitTimes (s : SimState) : SimState :=
  { s with
    waiting := s.waiting.map (fun kv => (kv.1, kv.2.map agePerson)),
    elevators := s.elevators.map
      (fun e => { e with passengers := e.passengers.map agePerson }) }

/-- One round of `Simulation.run`: arrivals, disembark, board, move, age. -/
def simRound (genArr : Nat → Waiting)
    (moveFn : Nat → List Elevator → Waiting → Int → Option (List Direction))
    (num_floors : Int) (round_num : Nat) (s : SimState) : Option SimState :=
  match generateArrivalsState (genArr round_num) s with
  | none => none
  | some s1 =>
      match handleBoardingState (handleLeavingState s1) with
      | none => none
      | some s3 =>
          match moveElevatorsState moveFn round_num num_floors s3 with
          | none => none
          | some s4 => some (increaseAllWaitTimes s4)

/-- Rounds `round_num, round_num + 1, ...` for `count` more rounds. -/
def runRounds (genArr : Nat → Waiting)
    (moveFn : Nat → List Elevator → Waiting → Int → Option (List Direction))
    (num_floors : Int) (round_num : Nat) (count : Nat) (s : SimState) :
    Option SimState :=
  match count with
  | 0 => some s
  | c + 1 =>
      match simRound genArr moveFn num_floors round_num s with
      | none => none
      | some s1 => runRounds genArr moveFn num_floors (round_num + 1) c s1

/-- The statistics record returned by `Simulation.run`. -/
structure Stats where
  num_iterations : Nat
  total_people : Nat
  people_completed : Nat
  max_time : Int
  min_time : Int
  avg_time : Int
deriving Repr, DecidableEq

/-- Python `max` over a non-empty list of ints (the `[]` case is guarded
at the only call site and never evaluated). -/
def maxL : List Int → Int
  | [] => 0
  | x :: xs => xs.foldl max x

/-- Python `min` over a non-empty list of ints (the `[]` case is guarded
at the only call site and never evaluated). -/
def minL : List Int → Int
  | [] => 0
  | x :: xs => xs.foldl min x

/-- `Simulation._calculate_stats`: sentinel `-1` for the three time fields
when no one was delivered; `int(sum/len)` is truncation toward zero of the
exact mean, `Int.tdiv`. -/
def calculateStats (num_rounds : Nat) (s : SimState) : Stats :=
  { num_iterations := num_rounds,
    total_people := s.total_people,
    people_completed := s.total_completed,
    max_time := if s.times.isEmpty then -1 else maxL s.times,
    min_time := if s.times.isEmpty then -1 else minL s.times,
    avg_time := if s.times.isEmpty then -1
                else Int.tdiv s.times.sum (s.times.length : Int) }

/-- `Simulation.run(num_rounds)` on a freshly constructed simulation. -/
def simRun (num_floors : Int) (num_elevators : Nat) (capacity : Int)
    (genArr : Nat → Waiting)
    (moveFn : Nat → List Elevator → Waiting → Int → Option (List Direction))
    (num_rounds : Nat) : Option Stats :=
  (runRounds genArr moveFn num_floors 0 num_rounds
      (simInit num_floors num_elevators capacity)).map
    (calculateStats num_rounds)

/-- A field of a CSV row for `FileArrivals`: `some n` is a token that
`int(...)` parses as the integer `n`; `none` is a non-integer token, on
which `int(...)` raises `ValueError`. -/
abbrev Token : Type := Option Int

/-- `[int(i) for i in line]`: parse every token or raise (`none`). -/
def parseRow (line : List Token) : Option (List Int) :=
  mapOpt id line

/-- `[(clean[i], clean[i+1]) for i in range(1, len(clean), 2)]` with the
bounds check: visiting `i` with no `clean[i+1]` raises `IndexError`.
`pairUp` is called on the fields after the key, two at a time. -/
def pairUp : List Int → Option (List (Int × Int))
  | [] => some []
  | [_] => none
  | a :: b :: rest =>
      match pairUp rest with
      | none => none
      | some ps => some ((a, b) :: ps)

/-- Dict assignment `d[k] = v` on an insertion-ordered store: overwrite an
existing key in place, otherwise append the new key. -/
def storeInsert (d : List (Int × List (Int × Int))) (k : Int)
    (v : List (Int × Int)) : List (Int × List (Int × Int)) :=
  match d with
  | [] => [(k, v)]
  | (k0, v0) :: rest =>
      if k0 = k then (k0, v) :: rest else (k0, v0) :: storeInsert rest k v

/-- `FileArrivals.__init__`: read every row, parse all fields as ints
(`ValueError` on a non-integer field), use the first field as the round
key (`IndexError` on an empty row) and pair up the remaining fields
(`IndexError` when their count is odd).  Any raise aborts construction. -/
def fileArrivalsInit (source : List (List Token)) :
    Option (List (Int × List (Int × Int))) :=
  source.foldlM
    (fun store line =>
      match parseRow line with
      | none => none
      | some clean =>
          match clean with
          | [] => none
          | key :: rest =>
              match pairUp rest with
              | none => none
              | some ps => some (storeInsert store key ps))
    []

/-- Dict membership / lookup in the data store. -/
def storeLookup (d : List (Int × List (Int × Int))) (k : Int) :
    Option (List (Int × Int)) :=
  match d with
  | [] => none
  | (k0, v) :: rest => if k0 = k then some v else storeLookup rest k

/-- Building the arrivals dict shared by `FileArrivals.generate` and
`RandomArrivals.generate`: append `Person(start, target)` to the entry at
`start`, creating the entry on first use (insertion order). -/
def buildArrivalsDict (info : List (Int × Int)) : Waiting :=
  info.foldl
    (fun acc st =>
      let p : Person := { start := st.1, target := st.2, wait_time := 0 }
      if (lookupFloor acc st.1).isSome then appendAt acc st.1 p
      else acc ++ [(st.1, [p])])
    []

/-- `FileArrivals.generate(round_num)`: an absent round yields the empty
dict; a present round instantiates `Person(start, target)` pairs. -/
def fileArrivalsGenerate (store : List (Int × List (Int × Int)))
    (round_num : Int) : Waiting :=
  match storeLookup store round_num with
  | none => []
  | some info => buildArrivalsDict info

/-!
## Specification-side definitions

These definitions follow the wording of the spec (not the code); the
refinement claims compare the code's choices against them.
-/

/-- The spec's direction rule: "Direction toward a floor F from current
floor C: Up if F>C, Down if F<C, Stay if F==C". -/
def specDirToward (c f : Int) : Direction :=
  if f > c then Direction.up
  else if f < c then Direction.down
  else Direction.stay

/-- Floor `f` has at least one waiting person in registry `w`. -/
def HasWaiting (w : Waiting) (f : Int) : Prop :=
  ∃ v, (f, v) ∈ w ∧ v ≠ []

/-- The spec's distance order for the short-sighted policy: `f` beats `g`
when it is strictly closer to `c`, or equidistant and not higher. -/
def NearestLE (c f g : Int) : Prop :=
  (f - c).natAbs < (g - c).natAbs ∨
    ((f - c).natAbs = (g - c).natAbs ∧ f ≤ g)

/-- Spec: "the *nearest* floor (by absolute distance) with waiting people,
breaking ties by choosing the lower floor number". -/
def IsNearestWaitingFloor (w : Waiting) (c f : Int) : Prop :=
  HasWaiting w f ∧ ∀ g, HasWaiting w g → NearestLE c f g

/-- Spec: "the *lowest-numbered* floor with at least one waiting person". -/
def IsLowestWaitingFloor (w : Waiting) (f : Int) : Prop :=
  HasWaiting w f ∧ ∀ g, HasWaiting w g → f ≤ g

/-- Spec: "the nearest passenger target by the same distance/tie-break
rule, ignoring boarding order". -/
def IsNearestTarget (e : Elevator) (t : Int) : Prop :=
  t ∈ e.passengers.map Person.target ∧
    ∀ u ∈ e.passengers.map Person.target, NearestLE e.current_floor t u

/-- The spec's boundary constraint on one dispatch decision: never Down
at floor 1, never Up at the top floor. -/
def BoundaryOK (max_floor : Int) (e : Elevator) (d : Direction) : Prop :=
  (e.current_floor = 1 → d ≠ Direction.down) ∧
    (e.current_floor = max_floor → d ≠ Direction.up)

/-!
## Basic lemmas: directions and randint
-/

theorem optionsMap_get_direction (e : Elevator) (t : Int) :
    optionsMap (e.get_direction t) = some (specDirToward e.current_floor t) := by
  unfold optionsMap Elevator.get_direction specDirToward
  rcases lt_trichotomy t e.current_floor with h | h | h
  · have h1 : ¬ t > e.current_floor := not_lt_of_gt h
    simp [h, h1]
  · simp [h, lt_irrefl]
  · simp [h]

theorem specDirToward_ne_down {c f : Int} (h : c ≤ f) :
    specDirToward c f ≠ Direction.down := by
  unfold specDirToward
  have h1 : ¬ f < c := not_lt_of_ge h
  split
  · simp
  · simp [h1]

theorem specDirToward_ne_up {c f : Int} (h : f ≤ c) :
    specDirToward c f ≠ Direction.up := by
  unfold specDirToward
  have h1 : ¬ f > c := not_lt_of_ge h
  simp [h1]
  split <;> simp

theorem randint_mem_01 (r : Int) : randint 0 1 r = 0 ∨ randint 0 1 r = 1 := by
  show 0 + (r - 0) % (1 - 0 + 1) = 0 ∨ 0 + (r - 0) % (1 - 0 + 1) = 1
  have e : (1 - 0 + 1 : Int) = 2 := by norm_num
  rw [e]
  have h1 : (0 : Int) ≤ (r - 0) % 2 := Int.emod_nonneg _ (by norm_num)
  have h2 : (r - 0) % 2 < 2 := Int.emod_lt_of_pos _ (by norm_num)
  omega

theorem randint_mem_neg10 (r : Int) :
    randint (-1) 0 r = -1 ∨ randint (-1) 0 r = 0 := by
  show -1 + (r - -1) % (0 - -1 + 1) = -1 ∨ -1 + (r - -1) % (0 - -1 + 1) = 0
  have e : (0 - -1 + 1 : Int) = 2 := by norm_num
  rw [e]
  have h1 : (0 : Int) ≤ (r - -1) % 2 := Int.emod_nonneg _ (by norm_num)
  have h2 : (r - -1) % 2 < 2 := Int.emod_lt_of_pos _ (by norm_num)
  omega

theorem randint_mem_neg11 (r : Int) :
    randint (-1) 1 r = -1 ∨ randint (-1) 1 r = 0 ∨ randint (-1) 1 r = 1 := by
  show -1 + (r - -1) % (1 - -1 + 1) = -1 ∨
    -1 + (r - -1) % (1 - -1 + 1) = 0 ∨ -1 + (r - -1) % (1 - -1 + 1) = 1
  have e : (1 - -1 + 1 : Int) = 3 := by norm_num
  rw [e]
  have h1 : (0 : Int) ≤ (r - -1) % 3 := Int.emod_nonneg _ (by norm_num)
  have h2 : (r - -1) % 3 < 3 := Int.emod_lt_of_pos _ (by norm_num)
  omega

/-!
## mapOpt lemmas
-/

theorem mapOpt_forall2 {f : α → Option β} :
    ∀ {l : List α} {bs : List β}, mapOpt f l = some bs →
      List.Forall₂ (fun a b => f a = some b) l bs := by
  intro l
  induction l with
  | nil => intro bs h; simp [mapOpt] at h; subst h; exact List.Forall₂.nil
  | cons a as ih =>
      intro bs h
      unfold mapOpt at h
      cases hfa : f a with
      | none => rw [hfa] at h; simp at h
      | some b =>
          cases hrest : mapOpt f as with
          | none => rw [hfa, hrest] at h; simp at h
          | some bs1 =>
              rw [hfa, hrest] at h
              simp at h
              subst h
              exact List.Forall₂.cons hfa (ih hrest)

theorem mapOpt_isSome {f : α → Option β} :
    ∀ {l : List α}, (∀ a ∈ l, (f a).isSome) → (mapOpt f l).isSome := by
  intro l
  induction l with
  | nil => intro _; simp [mapOpt]
  | cons a as ih =>
      intro h
      unfold mapOpt
      cases hfa : f a with
      | none =>
          have := h a (List.mem_cons_self a as)
          rw [hfa] at this
          simp at this
      | some b =>
          have hrest := ih (fun x hx => h x (List.mem_cons_of_mem a hx))
          cases hr : mapOpt f as with
          | none => rw [hr] at hrest; simp at hrest
          | some bs => simp

theorem mapOptIdx_forall2 {f : Nat → α → Option β} :
    ∀ {l : List α} {i : Nat} {bs : List β}, mapOptIdx f i l = some bs →
      List.Forall₂ (fun a b => ∃ j, f j a = some b) l bs := by
  intro l
  induction l with
  | nil => intro i bs h; simp [mapOptIdx] at h; subst h; exact List.Forall₂.nil
  | cons a as ih =>
      intro i bs h
      unfold mapOptIdx at h
      cases hfa : f i a with
      | none => rw [hfa] at h; simp at h
      | some b =>
          cases hrest : mapOptIdx f (i + 1) as with
          | none => rw [hfa, hrest] at h; simp at h
          | some bs1 =>
              rw [hfa, hrest] at h
              simp at h
              subst h
              exact List.Forall₂.cons ⟨i, hfa⟩ (ih hrest)

/-!
## The fold arguments behind the dispatch helpers
-/

theorem foldl_max_spec :
    ∀ (xs : List Int) (a : Int),
      (xs.foldl max a = a ∨ xs.foldl max a ∈ xs) ∧
        a ≤ xs.foldl max a ∧ ∀ x ∈ xs, x ≤ xs.foldl max a := by
  intro xs
  induction xs with
  | nil => intro a; simp
  | cons x xs ih =>
      intro a
      have h := ih (max a x)
      rw [List.foldl_cons]
      refine ⟨?_, ?_, ?_⟩
      · rcases h.1 with h1 | h1
        · rcases max_choice a x with hm | hm
          · left; rw [h1, hm]
          · right; rw [h1, hm]; exact List.mem_cons_self x xs
        · right; exact List.mem_cons_of_mem x h1
      · exact le_trans (le_max_left a x) h.2.1
      · intro y hy
        rcases List.mem_cons.mp hy with rfl | hy2
        · exact le_trans (le_max_right a y) h.2.1
        · exact h.2.2 y hy2

theorem maxKeys_spec {w : Waiting} {m : Int} (h : maxKeys w = some m) :
    m ∈ keysOf w ∧ ∀ k ∈ keysOf w, k ≤ m := by
  cases w with
  | nil => simp [maxKeys] at h
  | cons kv rest =>
      have h2 : rest.foldl (fun a kv2 => max a kv2.1) kv.1 = m := by
        simpa [maxKeys] using h
      have hm : (rest.map Prod.fst).foldl max kv.1 = m := by
        rw [List.foldl_map]; exact h2
      have hs := foldl_max_spec (rest.map Prod.fst) kv.1
      have hkeys : keysOf (kv :: rest) = kv.1 :: rest.map Prod.fst := rfl
      constructor
      · rw [hkeys]
        rcases hs.1 with h1 | h1
        · rw [hm] at h1; rw [← h1]; exact List.mem_cons_self _ _
        · rw [hm] at h1; exact List.mem_cons_of_mem _ h1
      · intro k hk
        rw [hkeys] at hk
        rcases List.mem_cons.mp hk with rfl | hk2
        · rw [← hm]; exact hs.2.1
        · rw [← hm]; exact hs.2.2 k hk2

theorem lowestFold_spec :
    ∀ (L : Waiting) (a : Int),
      let r := L.foldl (fun acc kv => if kv.2 ≠ [] ∧ kv.1 < acc then kv.1 else acc) a
      (r = a ∨ ∃ v, (r, v) ∈ L ∧ v ≠ []) ∧ r ≤ a ∧
        ∀ kv ∈ L, kv.2 ≠ [] → r ≤ kv.1 := by
  intro L
  induction L with
  | nil => intro a; simp
  | cons kv rest ih =>
      intro a
      rw [List.foldl_cons]
      by_cases hc : kv.2 ≠ [] ∧ kv.1 < a
      · have h := ih kv.1
        rw [if_pos hc]
        refine ⟨?_, ?_, ?_⟩
        · rcases h.1 with h1 | h1
          · right; exact ⟨kv.2, by rw [h1]; exact List.mem_cons_self kv rest, hc.1⟩
          · right; rcases h1 with ⟨v, hv, hne⟩
            exact ⟨v, List.mem_cons_of_mem kv hv, hne⟩
        · exact le_trans h.2.1 (le_of_lt hc.2)
        · intro kv2 hkv2 hne
          rcases List.mem_cons.mp hkv2 with rfl | h2
          · exact h.2.1
          · exact h.2.2 kv2 h2 hne
      · have h := ih a
        rw [if_neg hc]
        refine ⟨?_, ?_, ?_⟩
        · rcases h.1 with h1 | h1
          · left; exact h1
          · right; rcases h1 with ⟨v, hv, hne⟩
            exact ⟨v, List.mem_cons_of_mem kv hv, hne⟩
        · exact h.2.1
        · intro kv2 hkv2 hne
          rcases List.mem_cons.mp hkv2 with rfl | h2
          · have : ¬ kv2.1 < a := fun hlt => hc ⟨hne, hlt⟩
            exact le_trans h.2.1 (not_lt.mp this)
          · exact h.2.2 kv2 h2 hne

/-- When somebody is waiting, `_get_lowest_floor_with_people` returns the
spec's lowest waiting floor. -/
theorem lowestFloorWithPeople_spec {w : Waiting} {l : Int}
    (hw : isPeopleWaiting w = true) (h : lowestFloorWithPeople w = some l) :
    IsLowestWaitingFloor w l := by
  rcases List.any_eq_true.mp hw with ⟨kv, hkv, hne⟩
  have hkvne : kv.2 ≠ [] := by
    intro he
    rw [he] at hne
    simp at hne
  unfold lowestFloorWithPeople at h
  cases hmk : maxKeys w with
  | none => rw [hmk] at h; simp at h
  | some m =>
      rw [hmk] at h
      simp at h
      have hms := maxKeys_spec hmk
      have hf := lowestFold_spec w m
      rw [h] at hf
      constructor
      · rcases hf.1 with h1 | h1
        · have hub : kv.1 ≤ m := hms.2 kv.1 (List.mem_map_of_mem Prod.fst hkv)
          have hlb : l ≤ kv.1 := hf.2.2 kv hkv hkvne
          have heq : kv.1 = l := le_antisymm (by rw [h1]; exact hub) hlb
          refine ⟨kv.2, ?_, hkvne⟩
          rw [← heq]
          exact hkv
        · exact h1
      · intro g hg
        rcases hg with ⟨v, hv, hvne⟩
        exact hf.2.2 (g, v) hv hvne

/-- `_get_lowest_floor_with_people` succeeds on a non-empty registry. -/
theorem lowestFloorWithPeople_isSome {w : Waiting} (hw : w ≠ []) :
    (lowestFloorWithPeople w).isSome := by
  unfold lowestFloorWithPeople maxKeys
  cases w with
  | nil => exact absurd rfl hw
  | cons kv rest => simp

theorem NearestLE_refl (c f : Int) : NearestLE c f f := by
  right
  exact ⟨rfl, le_refl f⟩

theorem NearestLE_trans {c a b d : Int} (h1 : NearestLE c a b)
    (h2 : NearestLE c b d) : NearestLE c a d := by
  rcases h1 with h1 | ⟨h1, h1b⟩ <;> rcases h2 with h2 | ⟨h2, h2b⟩
  · left; exact lt_trans h1 h2
  · left; rw [← h2]; exact h1
  · left; rw [h1]; exact h2
  · right; exact ⟨h1.trans h2, le_trans h1b h2b⟩

theorem closerStep_choice (c a f : Int) :
    closerStep c a f = a ∨ closerStep c a f = f := by
  unfold closerStep
  split
  · right; rfl
  · split
    · rcases min_choice f a with hm | hm
      · right; exact hm
      · left; exact hm
    · left; rfl

theorem closerStep_le_left (c a f : Int) :
    NearestLE c (closerStep c a f) a := by
  unfold closerStep
  split
  · left; assumption
  · split
    · rcases min_choice f a with hm | hm
      · rw [hm]
        have hfa : f ≤ a := by
          have := min_le_right f a
          rw [hm] at this
          exact this
        right
        exact ⟨by assumption, hfa⟩
      · rw [hm]; exact NearestLE_refl c a
    · exact NearestLE_refl c a

theorem closerStep_le_right (c a f : Int) :
    NearestLE c (closerStep c a f) f := by
  unfold closerStep
  split
  · exact NearestLE_refl c f
  · split
    · rcases min_choice f a with hm | hm
      · rw [hm]; exact NearestLE_refl c f
      · rw [hm]
        have haf : a ≤ f := by
          have := min_le_left f a
          rw [hm] at this
          exact this
        right
        refine ⟨?_, haf⟩
        omega
    · left; omega

theorem foldl_closer_spec :
    ∀ (L : List Int) (c a : Int),
      (L.foldl (closerStep c) a = a ∨ L.foldl (closerStep c) a ∈ L) ∧
        NearestLE c (L.foldl (closerStep c) a) a ∧
        ∀ g ∈ L, NearestLE c (L.foldl (closerStep c) a) g := by
  intro L
  induction L with
  | nil => intro c a; exact ⟨Or.inl rfl, NearestLE_refl c a, by simp⟩
  | cons x xs ih =>
      intro c a
      have h := ih c (closerStep c a x)
      rw [List.foldl_cons]
      refine ⟨?_, ?_, ?_⟩
      · rcases h.1 with h1 | h1
        · rcases closerStep_choice c a x with hc | hc
          · left; rw [h1, hc]
          · right; rw [h1, hc]; exact List.mem_cons_self x xs
        · right; exact List.mem_cons_of_mem x h1
      · exact NearestLE_trans h.2.1 (closerStep_le_left c a x)
      · intro g hg
        rcases List.mem_cons.mp hg with rfl | hg2
        · exact NearestLE_trans h.2.1 (closerStep_le_right c a g)
        · exact h.2.2 g hg2

theorem mem_floorsWithWaiting_iff {w : Waiting} {g : Int} :
    g ∈ (w.filter (fun kv => !kv.2.isEmpty)).map Prod.fst ↔ HasWaiting w g := by
  constructor
  · intro h
    rcases List.mem_map.mp h with ⟨kv, hkv, hfst⟩
    have hmem := List.mem_filter.mp hkv
    refine ⟨kv.2, ?_, ?_⟩
    · rw [← hfst]; exact hmem.1
    · intro he
      have := hmem.2
      rw [he] at this
      simp at this
  · rintro ⟨v, hv, hne⟩
    refine List.mem_map.mpr ⟨(g, v), List.mem_filter.mpr ⟨hv, ?_⟩, rfl⟩
    simp [hne]

/-- When somebody is waiting, `_get_closest_waiting_floor` returns the
spec's nearest waiting floor (ties to the lower floor). -/
theorem closestWaitingFloor_spec {w : Waiting} {current f : Int}
    (h : closestWaitingFloor current w = some f) :
    IsNearestWaitingFloor w current f := by
  unfold closestWaitingFloor at h
  cases hL : (w.filter (fun kv => !kv.2.isEmpty)).map Prod.fst with
  | nil => rw [hL] at h; simp at h
  | cons c rest =>
      rw [hL] at h
      simp at h
      have hf := foldl_closer_spec rest current c
      rw [h] at hf
      constructor
      · apply mem_floorsWithWaiting_iff.mp
        rw [hL]
        rcases hf.1 with h1 | h1
        · rw [h1]; exact List.mem_cons_self c rest
        · exact List.mem_cons_of_mem c h1
      · intro g hg
        have hgL : g ∈ c :: rest := by
          rw [← hL]; exact mem_floorsWithWaiting_iff.mpr hg
        rcases List.mem_cons.mp hgL with rfl | hg2
        · exact hf.2.1
        · exact hf.2.2 g hg2

/-- `_get_closest_waiting_floor` succeeds whenever somebody is waiting. -/
theorem closestWaitingFloor_isSome {w : Waiting} {current : Int}
    (hw : isPeopleWaiting w = true) :
    (closestWaitingFloor current w).isSome := by
  rcases List.any_eq_true.mp hw with ⟨kv, hkv, hne⟩
  have : kv.1 ∈ (w.filter (fun kv2 => !kv2.2.isEmpty)).map Prod.fst :=
    List.mem_map_of_mem Prod.fst (List.mem_filter.mpr ⟨hkv, hne⟩)
  unfold closestWaitingFloor
  cases hL : (w.filter (fun kv2 => !kv2.2.isEmpty)).map Prod.fst with
  | nil => rw [hL] at this; simp at this
  | cons c rest => simp

/-- On a non-empty elevator, `_get_closest_target_floor` returns the
spec's nearest passenger target (ties to the lower floor). -/
theorem closestTargetFloor_spec {e : Elevator} {t : Int}
    (h : closestTargetFloor e = some t) : IsNearestTarget e t := by
  unfold closestTargetFloor at h
  cases hL : e.passengers.map Person.target with
  | nil => rw [hL] at h; simp at h
  | cons c rest =>
      rw [hL] at h
      simp at h
      have hf := foldl_closer_spec rest e.current_floor c
      rw [h] at hf
      constructor
      · rw [hL]
        rcases hf.1 with h1 | h1
        · rw [h1]; exact List.mem_cons_self c rest
        · exact List.mem_cons_of_mem c h1
      · intro g hg
        rw [hL] at hg
        rcases List.mem_cons.mp hg with rfl | hg2
        · exact hf.2.1
        · exact hf.2.2 g hg2

/-- `_get_closest_target_floor` succeeds on a non-empty elevator. -/
theorem closestTargetFloor_isSome {e : Elevator}
    (hne : e.passengers ≠ []) : (closestTargetFloor e).isSome := by
  unfold closestTargetFloor
  cases hp : e.passengers with
  | nil => exact absurd hp hne
  | cons p rest => simp

/-!
## Boundary behaviour of the three dispatch policies
-/

/-- The elevator's floor lies in the building range. -/
def ElevRangeOK (max_floor : Int) (e : Elevator) : Prop :=
  1 ≤ e.current_floor ∧ e.current_floor ≤ max_floor

/-- All passenger targets aboard lie in the building range. -/
def TargetsOK (max_floor : Int) (e : Elevator) : Prop :=
  ∀ p ∈ e.passengers, 1 ≤ p.target ∧ p.target ≤ max_floor

/-- All registry keys lie in the building range. -/
def KeysOK (max_floor : Int) (w : Waiting) : Prop :=
  ∀ k ∈ keysOf w, 1 ≤ k ∧ k ≤ max_floor

theorem forall2_imp_mem {R S : α → β → Prop} :
    ∀ {l1 : List α} {l2 : List β}, List.Forall₂ R l1 l2 →
      (∀ a b, a ∈ l1 → R a b → S a b) → List.Forall₂ S l1 l2 := by
  intro l1 l2 h
  induction h with
  | nil => intro _; exact List.Forall₂.nil
  | cons hab _ ih =>
      intro himp
      refine List.Forall₂.cons
        (himp _ _ (List.mem_cons_self _ _) hab) (ih ?_)
      intro a b ha hr
      exact himp a b (List.mem_cons_of_mem _ ha) hr

theorem HasWaiting_mem_keys {w : Waiting} {f : Int} (h : HasWaiting w f) :
    f ∈ keysOf w := by
  rcases h with ⟨v, hv, _⟩
  exact List.mem_map_of_mem Prod.fst hv

theorem boundaryOK_of_specDir {mf t : Int} {e : Elevator}
    (h1 : 1 ≤ t) (h2 : t ≤ mf) :
    BoundaryOK mf e (specDirToward e.current_floor t) := by
  constructor
  · intro hfl
    apply specDirToward_ne_down
    rw [hfl]
    exact h1
  · intro hfl
    apply specDirToward_ne_up
    rw [hfl]
    exact h2

theorem pushyOne_boundary {mf lowest : Int} {pw : Bool} {e : Elevator}
    {d : Direction} (hl : pw = true → 1 ≤ lowest ∧ lowest ≤ mf)
    (ht : TargetsOK mf e) (h : pushyOne pw lowest e = some d) :
    BoundaryOK mf e d := by
  unfold pushyOne at h
  by_cases hemp : e.isEmpty
  · rw [if_pos hemp] at h
    cases pw with
    | true =>
        rw [if_pos rfl] at h
        rw [optionsMap_get_direction] at h
        have := (hl rfl)
        injection h with h
        rw [← h]
        exact boundaryOK_of_specDir this.1 this.2
    | false =>
        simp only [Bool.false_eq_true, if_false] at h
        have hd : d = Direction.stay := by
          simpa [optionsMap] using h.symm
        rw [hd]
        exact ⟨fun _ => by simp, fun _ => by simp⟩
  · rw [if_neg hemp] at h
    cases hp : e.passengers.head? with
    | none => rw [hp] at h; simp at h
    | some p =>
        rw [hp] at h
        change optionsMap (e.get_direction p.target) = some d at h
        rw [optionsMap_get_direction] at h
        injection h with h
        have hpm : p ∈ e.passengers := List.mem_of_mem_head? hp
        have := ht p hpm
        rw [← h]
        exact boundaryOK_of_specDir this.1 this.2

theorem shortSightedOne_boundary {mf : Int} {pw : Bool} {w : Waiting}
    {e : Elevator} {d : Direction} (hk : KeysOK mf w) (ht : TargetsOK mf e)
    (h : shortSightedOne pw w e = some d) : BoundaryOK mf e d := by
  unfold shortSightedOne at h
  by_cases hemp : e.isEmpty
  · rw [if_pos hemp] at h
    cases pw with
    | true =>
        rw [if_pos rfl] at h
        cases hc : closestWaitingFloor e.current_floor w with
        | none => rw [hc] at h; simp at h
        | some closest =>
            rw [hc] at h
            change optionsMap (e.get_direction closest) = some d at h
            rw [optionsMap_get_direction] at h
            injection h with h
            have hspec := closestWaitingFloor_spec hc
            have hrange := hk closest (HasWaiting_mem_keys hspec.1)
            rw [← h]
            exact boundaryOK_of_specDir hrange.1 hrange.2
    | false =>
        simp only [Bool.false_eq_true, if_false] at h
        have hd : d = Direction.stay := by
          simpa [optionsMap] using h.symm
        rw [hd]
        exact ⟨fun _ => by simp, fun _ => by simp⟩
  · rw [if_neg hemp] at h
    cases hc : closestTargetFloor e with
    | none => rw [hc] at h; simp at h
    | some t =>
        rw [hc] at h
        change optionsMap (e.get_direction t) = some d at h
        rw [optionsMap_get_direction] at h
        injection h with h
        have hspec := closestTargetFloor_spec hc
        rcases List.mem_map.mp hspec.1 with ⟨p, hpm, hpt⟩
        have := ht p hpm
        rw [← h, ← hpt]
        exact boundaryOK_of_specDir this.1 this.2

theorem randomOne_boundary {mf : Int} {e : Elevator} {d : Direction}
    {r : Int} (hmf : 2 ≤ mf)
    (h : (if e.current_floor = 1 then optionsMap (randint 0 1 r)
          else if e.current_floor = mf then optionsMap (randint (-1) 0 r)
          else optionsMap (randint (-1) 1 r)) = some d) :
    BoundaryOK mf e d := by
  by_cases h1 : e.current_floor = 1
  · rw [if_pos h1] at h
    rcases randint_mem_01 r with hr | hr <;> rw [hr] at h <;>
      simp [optionsMap] at h <;> rw [← h]
    · exact ⟨fun _ => by simp, fun _ => by simp⟩
    · refine ⟨fun _ => by simp, fun hfl => ?_⟩
      rw [h1] at hfl
      omega
  · rw [if_neg h1] at h
    by_cases h2 : e.current_floor = mf
    · rw [if_pos h2] at h
      rcases randint_mem_neg10 r with hr | hr <;> rw [hr] at h <;>
        simp [optionsMap] at h <;> rw [← h]
      · exact ⟨fun hfl => absurd hfl h1, fun _ => by simp⟩
      · exact ⟨fun _ => by simp, fun _ => by simp⟩
    · rw [if_neg h2] at h
      exact ⟨fun hfl => absurd hfl h1, fun hfl => absurd hfl h2⟩

/-- All three dispatch variants respect the spec's boundary constraint,
provided the building has at least two floors and all registry keys and
aboard targets are in range. -/
theorem policy_move_boundary {p : Policy} {r : Nat} {es : List Elevator}
    {w : Waiting} {mf : Int} {ds : List Direction} (hmf : 2 ≤ mf)
    (hk : KeysOK mf w) (ht : ∀ e ∈ es, TargetsOK mf e)
    (h : Policy.move p r es w mf = some ds) :
    List.Forall₂ (BoundaryOK mf) es ds := by
  cases p with
  | randomAlg oracle =>
      have hf := mapOptIdx_forall2 h
      refine forall2_imp_mem hf ?_
      rintro e d he ⟨j, hj⟩
      exact randomOne_boundary hmf hj
  | pushyPassenger =>
      unfold Policy.move pushyMoveElevators at h
      cases hlow : lowestFloorWithPeople w with
      | none => rw [hlow] at h; simp at h
      | some lowest =>
          rw [hlow] at h
          simp only at h
          have hf := mapOpt_forall2 h
          refine forall2_imp_mem hf ?_
          intro e d he hone
          refine pushyOne_boundary ?_ (ht e he) hone
          intro hpw
          have hspec := lowestFloorWithPeople_spec hpw hlow
          exact hk lowest (HasWaiting_mem_keys hspec.1)
  | shortSighted =>
      unfold Policy.move shortSightedMoveElevators at h
      have hf := mapOpt_forall2 h
      refine forall2_imp_mem hf ?_
      intro e d he hone
      exact shortSightedOne_boundary hk (ht e he) hone

/-!
## Refinement of the two deterministic policies against the spec's words
-/

theorem isEmpty_iff_nil {e : Elevator} : e.isEmpty = true ↔ e.passengers = [] := by
  unfold Elevator.isEmpty
  simp [List.length_eq_zero]

/-- The spec's description of one pushy-passenger decision. -/
def PushySpec (w : Waiting) (e : Elevator) (d : Direction) : Prop :=
  (e.passengers = [] → isPeopleWaiting w = true →
    ∃ f, IsLowestWaitingFloor w f ∧ d = specDirToward e.current_floor f) ∧
  (e.passengers = [] → isPeopleWaiting w = false → d = Direction.stay) ∧
  (∀ p rest, e.passengers = p :: rest →
    d = specDirToward e.current_floor p.target)

/-- The spec's description of one short-sighted decision. -/
def ShortSightedSpec (w : Waiting) (e : Elevator) (d : Direction) : Prop :=
  (e.passengers = [] → isPeopleWaiting w = true →
    ∃ f, IsNearestWaitingFloor w e.current_floor f ∧
      d = specDirToward e.current_floor f) ∧
  (e.passengers = [] → isPeopleWaiting w = false → d = Direction.stay) ∧
  (e.passengers ≠ [] →
    ∃ t, IsNearestTarget e t ∧ d = specDirToward e.current_floor t)

theorem pushyOne_isSome (pw : Bool) (lowest : Int) (e : Elevator) :
    (pushyOne pw lowest e).isSome := by
  unfold pushyOne
  by_cases hemp : e.isEmpty
  · rw [if_pos hemp]
    cases pw with
    | false => simp [optionsMap]
    | true =>
        rw [if_pos rfl, optionsMap_get_direction]
        simp
  · rw [if_neg hemp]
    cases hp : e.passengers with
    | nil => exact absurd (isEmpty_iff_nil.mpr hp) hemp
    | cons p rest => simp [hp, optionsMap_get_direction]

theorem pushyOne_spec {w : Waiting} {lowest : Int} {e : Elevator}
    {d : Direction} (hlow : lowestFloorWithPeople w = some lowest)
    (h : pushyOne (isPeopleWaiting w) lowest e = some d) :
    PushySpec w e d := by
  unfold pushyOne at h
  refine ⟨?_, ?_, ?_⟩
  · intro hnil hpw
    have hemp : e.isEmpty = true := isEmpty_iff_nil.mpr hnil
    rw [if_pos hemp, hpw, if_pos rfl, optionsMap_get_direction] at h
    injection h with h
    exact ⟨lowest, lowestFloorWithPeople_spec hpw hlow, h.symm⟩
  · intro hnil hpw
    have hemp : e.isEmpty = true := isEmpty_iff_nil.mpr hnil
    rw [if_pos hemp, hpw] at h
    simp only [Bool.false_eq_true, if_false] at h
    simpa [optionsMap] using h.symm
  · intro p rest hp
    have hemp : ¬ e.isEmpty = true := by
      rw [isEmpty_iff_nil, hp]
      simp
    rw [if_neg hemp, hp] at h
    change optionsMap (e.get_direction p.target) = some d at h
    rw [optionsMap_get_direction] at h
    injection h with h
    exact h.symm

theorem shortSightedOne_isSome (w : Waiting) (e : Elevator) :
    (shortSightedOne (isPeopleWaiting w) w e).isSome := by
  unfold shortSightedOne
  by_cases hemp : e.isEmpty
  · rw [if_pos hemp]
    cases hpw : isPeopleWaiting w with
    | true =>
        rw [if_pos rfl]
        have hs := @closestWaitingFloor_isSome w e.current_floor hpw
        cases hc : closestWaitingFloor e.current_floor w with
        | none => rw [hc] at hs; simp at hs
        | some closest => simp [hc, optionsMap_get_direction]
    | false => simp [optionsMap]
  · rw [if_neg hemp]
    have hne : e.passengers ≠ [] := fun hp => hemp (isEmpty_iff_nil.mpr hp)
    have hs := closestTargetFloor_isSome hne
    cases hc : closestTargetFloor e with
    | none => rw [hc] at hs; simp at hs
    | some t => simp [hc, optionsMap_get_direction]

theorem shortSightedOne_spec {w : Waiting} {e : Elevator} {d : Direction}
    (h : shortSightedOne (isPeopleWaiting w) w e = some d) :
    ShortSightedSpec w e d := by
  unfold shortSightedOne at h
  refine ⟨?_, ?_, ?_⟩
  · intro hnil hpw
    have hemp : e.isEmpty = true := isEmpty_iff_nil.mpr hnil
    rw [if_pos hemp, hpw, if_pos rfl] at h
    cases hc : closestWaitingFloor e.current_floor w with
    | none => rw [hc] at h; simp at h
    | some closest =>
        rw [hc] at h
        change optionsMap (e.get_direction closest) = some d at h
        rw [optionsMap_get_direction] at h
        injection h with h
        exact ⟨closest, closestWaitingFloor_spec hc, h.symm⟩
  · intro hnil hpw
    have hemp : e.isEmpty = true := isEmpty_iff_nil.mpr hnil
    rw [if_pos hemp, hpw] at h
    simp only [Bool.false_eq_true, if_false] at h
    simpa [optionsMap] using h.symm
  · intro hne
    have hemp : ¬ e.isEmpty = true := fun hp => hne (isEmpty_iff_nil.mp hp)
    rw [if_neg hemp] at h
    cases hc : closestTargetFloor e with
    | none => rw [hc] at h; simp at h
    | some t =>
        rw [hc] at h
        change optionsMap (e.get_direction t) = some d at h
        rw [optionsMap_get_direction] at h
        injection h with h
        exact ⟨t, closestTargetFloor_spec hc, h.symm⟩

/-!
## The reversed-iteration disembark loop removes exactly the arrived
passengers and skips nobody
-/

theorem get?_append_cons :
    ∀ (xs : List α) (y : α) (ys : List α),
      (xs ++ y :: ys).get? xs.length = some y := by
  intro xs
  induction xs with
  | nil => intro y ys; rfl
  | cons x xs2 ih => intro y ys; simpa using ih y ys

theorem eraseIdx_append_cons :
    ∀ (xs : List α) (y : α) (ys : List α),
      (xs ++ y :: ys).eraseIdx xs.length = xs ++ ys := by
  intro xs
  induction xs with
  | nil => intro y ys; rfl
  | cons x xs2 ih =>
      intro y ys
      show x :: (xs2 ++ y :: ys).eraseIdx xs2.length = x :: (xs2 ++ ys)
      rw [ih y ys]

theorem leavingIdx_zero (floor : Int) (l : List Person) :
    leavingIdx floor l 0 =
      match l.head? with
      | none => (l, [])
      | some p =>
          if p.target = floor then (l.eraseIdx 0, [p.wait_time])
          else (l, []) := rfl

theorem leavingIdx_succ (floor : Int) (l : List Person) (i : Nat) :
    leavingIdx floor l (i + 1) =
      match l.get? (i + 1) with
      | none => (l, [])
      | some p =>
          if p.target = floor then
            ((leavingIdx floor (l.eraseIdx (i + 1)) i).1,
              p.wait_time :: (leavingIdx floor (l.eraseIdx (i + 1)) i).2)
          else leavingIdx floor l i := by
  rw [leavingIdx]

theorem leavingIdx_succ_some {floor : Int} {l : List Person} {i : Nat}
    {p : Person} (h : l.get? (i + 1) = some p) :
    leavingIdx floor l (i + 1) =
      if p.target = floor then
        ((leavingIdx floor (l.eraseIdx (i + 1)) i).1,
          p.wait_time :: (leavingIdx floor (l.eraseIdx (i + 1)) i).2)
      else leavingIdx floor l i := by
  rw [leavingIdx_succ, h]

theorem leavingIdx_append_spec (floor : Int) (l0 : List Person) :
    ∀ (tail : List Person), l0 ≠ [] →
      leavingIdx floor (l0 ++ tail) (l0.length - 1) =
        (l0.filter (fun p => !(p.target == floor)) ++ tail,
          (l0.filter (fun p => p.target == floor)).reverse.map
            Person.wait_time) := by
  induction l0 using List.reverseRecOn with
  | nil => intro tail h; exact absurd rfl h
  | append_singleton xs p ih =>
      intro tail _
      have hassoc : (xs ++ [p]) ++ tail = xs ++ p :: tail := by
        rw [List.append_assoc, List.singleton_append]
      have hlen : (xs ++ [p]).length - 1 = xs.length := by simp
      rw [hassoc, hlen]
      cases xs with
      | nil =>
          rw [List.nil_append, List.length_nil, leavingIdx_zero]
          by_cases hp : p.target = floor
          · simp [hp]
          · simp [hp]
      | cons x xs2 =>
          have hget : (x :: xs2 ++ p :: tail).get? (xs2.length + 1) = some p :=
            get?_append_cons (x :: xs2) p tail
          have herase :
              (x :: xs2 ++ p :: tail).eraseIdx (xs2.length + 1) =
                x :: xs2 ++ tail :=
            eraseIdx_append_cons (x :: xs2) p tail
          have hidx : (x :: xs2).length = xs2.length + 1 := rfl
          rw [hidx, leavingIdx_succ_some hget, herase]
          by_cases hp : p.target = floor
          · rw [if_pos hp]
            have hrec := ih tail (by simp)
            rw [show (x :: xs2).length - 1 = xs2.length from rfl] at hrec
            rw [hrec]
            dsimp only
            rw [List.filter_append, List.filter_append]
            have h1 : List.filter (fun q => !(q.target == floor)) [p] = [] := by
              simp [hp]
            have h2 : List.filter (fun q => q.target == floor) [p] = [p] := by
              simp [hp]
            rw [h1, h2]
            simp
          · rw [if_neg hp]
            have hrec := ih (p :: tail) (by simp)
            rw [show (x :: xs2).length - 1 = xs2.length from rfl] at hrec
            rw [hrec]
            rw [List.filter_append, List.filter_append]
            have h1 : List.filter (fun q => !(q.target == floor)) [p] = [p] := by
              simp [hp]
            have h2 : List.filter (fun q => q.target == floor) [p] = [] := by
              simp [hp]
            rw [h1, h2]
            simp

/-- `_handle_leaving` for one elevator: the survivors are exactly the
passengers whose target is not the current floor, kept in their original
relative order, and the recorded wait times are those of the removed
passengers (visited back to front). -/
theorem unloadAll_spec (floor : Int) (ps : List Person) :
    unloadAll floor ps =
      (ps.filter (fun p => !(p.target == floor)),
        (ps.filter (fun p => p.target == floor)).reverse.map
          Person.wait_time) := by
  cases hps : ps with
  | nil => rfl
  | cons q rest =>
      have h := leavingIdx_append_spec floor (q :: rest) [] (by simp)
      rw [List.append_nil] at h
      unfold unloadAll
      rw [h]
      simp

/-- The remaining passengers of elevator `e` after disembarking. -/
def survivors (e : Elevator) : List Person :=
  e.passengers.filter (fun p => !(p.target == e.current_floor))

/-- The passengers of elevator `e` that disembark (target = current floor). -/
def arrivedOf (e : Elevator) : List Person :=
  e.passengers.filter (fun p => p.target == e.current_floor)

theorem leavingElevators_spec :
    ∀ es : List Elevator,
      leavingElevators es =
        (es.map (fun e => { e with passengers := survivors e }),
          (es.map (fun e => (arrivedOf e).reverse.map Person.wait_time)).flatten) := by
  intro es
  induction es with
  | nil => rfl
  | cons e rest ih =>
      unfold leavingElevators
      rw [unloadAll_spec, ih]
      simp [survivors, arrivedOf]

/-- `Simulation._handle_leaving` in full: arrived passengers are removed
(none skipped), the others stay aboard in order, the delivered counter
grows by the number of removals, and the removed passengers' wait times
are appended to the record. -/
theorem handleLeavingState_spec (s : SimState) :
    handleLeavingState s =
      { s with
        elevators := s.elevators.map (fun e => { e with passengers := survivors e }),
        total_completed := s.total_completed +
          (s.elevators.map (fun e => (arrivedOf e).length)).sum,
        times := s.times ++
          (s.elevators.map
            (fun e => (arrivedOf e).reverse.map Person.wait_time)).flatten } := by
  unfold handleLeavingState
  rw [leavingElevators_spec]
  have hlen :
      ((s.elevators.map
          (fun e => (arrivedOf e).reverse.map Person.wait_time)).flatten).length =
        (s.elevators.map (fun e => (arrivedOf e).length)).sum := by
    rw [List.length_flatten, List.map_map]
    have hfun :
        (List.length ∘ fun e => List.map Person.wait_time (arrivedOf e).reverse)
          = (fun e : Elevator => (arrivedOf e).length) := by
      funext e
      simp
    rw [hfun]
  simp only [hlen]

/-!
## Registry bookkeeping lemmas
-/

/-- Person `p` is somewhere in the waiting registry. -/
def inWaiting (w : Waiting) (p : Person) : Prop :=
  ∃ kv ∈ w, p ∈ kv.2

/-- Total number of people in an arrivals dict. -/
def countArrivals (a : Waiting) : Nat :=
  (a.map (fun kv => kv.2.length)).sum

theorem lookupFloor_mem_pair {w : Waiting} {f : Int} {v : List Person}
    (h : lookupFloor w f = some v) : (f, v) ∈ w := by
  induction w with
  | nil => simp [lookupFloor] at h
  | cons kv rest ih =>
      unfold lookupFloor at h
      by_cases hk : kv.1 = f
      · rw [if_pos hk] at h
        injection h with h
        have hfv : (f, v) = kv := by rw [← hk, ← h]
        rw [hfv]
        exact List.mem_cons_self kv rest
      · rw [if_neg hk] at h
        exact List.mem_cons_of_mem kv (ih h)

theorem keysOf_appendAt (w : Waiting) (f : Int) (p : Person) :
    keysOf (appendAt w f p) = keysOf w := by
  induction w with
  | nil => rfl
  | cons kv rest ih =>
      unfold appendAt
      by_cases hk : kv.1 = f
      · rw [if_pos hk]; rfl
      · rw [if_neg hk]
        show kv.1 :: keysOf (appendAt rest f p) = kv.1 :: keysOf rest
        rw [ih]

theorem inWaiting_appendAt {w : Waiting} {f : Int} {p q : Person}
    (h : inWaiting (appendAt w f p) q) : inWaiting w q ∨ q = p := by
  induction w with
  | nil => simp [appendAt, inWaiting] at h
  | cons kv rest ih =>
      unfold appendAt at h
      by_cases hk : kv.1 = f
      · rw [if_pos hk] at h
        rcases h with ⟨kv2, hkv2, hq⟩
        rcases List.mem_cons.mp hkv2 with rfl | hmem
        · rcases List.mem_append.mp hq with hq1 | hq2
          · exact Or.inl ⟨kv, List.mem_cons_self kv rest, hq1⟩
          · right; simpa using hq2
        · exact Or.inl ⟨kv2, List.mem_cons_of_mem kv hmem, hq⟩
      · rw [if_neg hk] at h
        rcases h with ⟨kv2, hkv2, hq⟩
        rcases List.mem_cons.mp hkv2 with rfl | hmem
        · exact Or.inl ⟨kv, List.mem_cons_self kv rest, hq⟩
        · rcases ih ⟨kv2, hmem, hq⟩ with h1 | h1
          · rcases h1 with ⟨kv3, hkv3, hq3⟩
            exact Or.inl ⟨kv3, List.mem_cons_of_mem kv hkv3, hq3⟩
          · exact Or.inr h1

theorem keysOf_setAt (w : Waiting) (f : Int) (v : List Person) :
    keysOf (setAt w f v) = keysOf w := by
  induction w with
  | nil => rfl
  | cons kv rest ih =>
      unfold setAt
      by_cases hk : kv.1 = f
      · rw [if_pos hk]; rfl
      · rw [if_neg hk]
        show kv.1 :: keysOf (setAt rest f v) = kv.1 :: keysOf rest
        rw [ih]

theorem inWaiting_setAt {w : Waiting} {f : Int} {v : List Person}
    {q : Person} (h : inWaiting (setAt w f v) q) : inWaiting w q ∨ q ∈ v := by
  induction w with
  | nil => simp [setAt, inWaiting] at h
  | cons kv rest ih =>
      unfold setAt at h
      by_cases hk : kv.1 = f
      · rw [if_pos hk] at h
        rcases h with ⟨kv2, hkv2, hq⟩
        rcases List.mem_cons.mp hkv2 with rfl | hmem
        · right; exact hq
        · exact Or.inl ⟨kv2, List.mem_cons_of_mem kv hmem, hq⟩
      · rw [if_neg hk] at h
        rcases h with ⟨kv2, hkv2, hq⟩
        rcases List.mem_cons.mp hkv2 with rfl | hmem
        · exact Or.inl ⟨kv, List.mem_cons_self kv rest, hq⟩
        · rcases ih ⟨kv2, hmem, hq⟩ with h1 | h1
          · rcases h1 with ⟨kv3, hkv3, hq3⟩
            exact Or.inl ⟨kv3, List.mem_cons_of_mem kv hkv3, hq3⟩
          · exact Or.inr h1

theorem lookupFloor_sub {w : Waiting} {f : Int} {v : List Person}
    (h : lookupFloor w f = some v) : ∀ p ∈ v, inWaiting w p := by
  intro p hp
  exact ⟨(f, v), lookupFloor_mem_pair h, hp⟩

/-!
## Stage lemmas: arrivals
-/

theorem addPerson_props {floor : Int} {st st1 : SimState} {p : Person}
    (h : addPerson floor st p = some st1) :
    st1.elevators = st.elevators ∧ st1.total_completed = st.total_completed ∧
    st1.times = st.times ∧ keysOf st1.waiting = keysOf st.waiting ∧
    st1.total_people = st.total_people + 1 ∧
    (∀ q, inWaiting st1.waiting q → inWaiting st.waiting q ∨ q = p) := by
  unfold addPerson at h
  cases hl : lookupFloor st.waiting floor with
  | none => rw [hl] at h; simp at h
  | some v =>
      rw [hl] at h
      injection h with h
      subst h
      refine ⟨rfl, rfl, rfl, keysOf_appendAt _ _ _, rfl, ?_⟩
      intro q hq
      exact inWaiting_appendAt hq

theorem addPersonsAtFloor_props :
    ∀ (ps : List Person) (floor : Int) (st st1 : SimState),
      ps.foldlM (addPerson floor) st = some st1 →
      st1.elevators = st.elevators ∧ st1.total_completed = st.total_completed ∧
      st1.times = st.times ∧ keysOf st1.waiting = keysOf st.waiting ∧
      st1.total_people = st.total_people + ps.length ∧
      (∀ q, inWaiting st1.waiting q → inWaiting st.waiting q ∨ q ∈ ps) := by
  intro ps
  induction ps with
  | nil =>
      intro floor st st1 h
      simp [List.foldlM] at h
      subst h
      exact ⟨rfl, rfl, rfl, rfl, rfl, fun q hq => Or.inl hq⟩
  | cons p rest ih =>
      intro floor st st1 h
      rw [List.foldlM_cons] at h
      cases hadd : addPerson floor st p with
      | none => rw [hadd] at h; simp at h
      | some st2 =>
          rw [hadd] at h
          simp only [Option.bind_eq_bind, Option.some_bind] at h
          have h1 := addPerson_props hadd
          have h2 := ih floor st2 st1 h
          refine ⟨h2.1.trans h1.1, h2.2.1.trans h1.2.1,
            h2.2.2.1.trans h1.2.2.1, h2.2.2.2.1.trans h1.2.2.2.1, ?_, ?_⟩
          · rw [h2.2.2.2.2.1, h1.2.2.2.2.1]
            simp [List.length_cons]
            omega
          · intro q hq
            rcases h2.2.2.2.2.2 q hq with hq1 | hq1
            · rcases h1.2.2.2.2.2 q hq1 with hq2 | hq2
              · exact Or.inl hq2
              · right; rw [hq2]; exact List.mem_cons_self p rest
            · right; exact List.mem_cons_of_mem p hq1

theorem generateArrivalsState_props :
    ∀ (a : Waiting) (s s1 : SimState),
      generateArrivalsState a s = some s1 →
      s1.elevators = s.elevators ∧ s1.total_completed = s.total_completed ∧
      s1.times = s.times ∧ keysOf s1.waiting = keysOf s.waiting ∧
      s1.total_people = s.total_people + countArrivals a ∧
      (∀ q, inWaiting s1.waiting q →
        inWaiting s.waiting q ∨ ∃ kv ∈ a, q ∈ kv.2) := by
  intro a
  induction a with
  | nil =>
      intro s s1 h
      simp [generateArrivalsState, List.foldlM] at h
      subst h
      exact ⟨rfl, rfl, rfl, rfl, by simp [countArrivals],
        fun q hq => Or.inl hq⟩
  | cons kv rest ih =>
      intro s s1 h
      unfold generateArrivalsState at h
      rw [List.foldlM_cons] at h
      cases hf : addPersonsAtFloor s kv with
      | none => rw [hf] at h; simp at h
      | some s2 =>
          rw [hf] at h
          simp only [Option.bind_eq_bind, Option.some_bind] at h
          have h1 := addPersonsAtFloor_props kv.2 kv.1 s s2 hf
          have h2 := ih s2 s1 h
          refine ⟨h2.1.trans h1.1, h2.2.1.trans h1.2.1,
            h2.2.2.1.trans h1.2.2.1, h2.2.2.2.1.trans h1.2.2.2.1, ?_, ?_⟩
          · rw [h2.2.2.2.2.1, h1.2.2.2.2.1]
            simp [countArrivals]
            omega
          · intro q hq
            rcases h2.2.2.2.2.2 q hq with hq1 | hq1
            · rcases h1.2.2.2.2.2 q hq1 with hq2 | hq2
              · exact Or.inl hq2
              · exact Or.inr ⟨kv, List.mem_cons_self kv rest, hq2⟩
            · rcases hq1 with ⟨kv2, hkv2, hq2⟩
              exact Or.inr ⟨kv2, List.mem_cons_of_mem kv hkv2, hq2⟩

/-!
## Stage lemmas: boarding
-/

theorem forall2_mem_right {R : α → β → Prop} :
    ∀ {l1 : List α} {l2 : List β}, List.Forall₂ R l1 l2 →
      ∀ b ∈ l2, ∃ a ∈ l1, R a b := by
  intro l1 l2 h
  induction h with
  | nil => intro b hb; simp at hb
  | cons hab htail ih =>
      intro b hb
      rcases List.mem_cons.mp hb with rfl | hb2
      · exact ⟨_, List.mem_cons_self _ _, hab⟩
      · rcases ih b hb2 with ⟨a, ha, hr⟩
        exact ⟨a, List.mem_cons_of_mem _ ha, hr⟩

theorem boardLoop_spec :
    ∀ (ps : List Person) (e : Elevator),
      (boardLoop e ps).1.current_floor = e.current_floor ∧
      (boardLoop e ps).1.max_capacity = e.max_capacity ∧
      (∀ p ∈ (boardLoop e ps).1.passengers, p ∈ e.passengers ∨ p ∈ ps) ∧
      (∀ p ∈ (boardLoop e ps).2, p ∈ ps) ∧
      ((e.passengers.length : Int) ≤ e.max_capacity →
        ((boardLoop e ps).1.passengers.length : Int) ≤
          (boardLoop e ps).1.max_capacity) := by
  intro ps
  induction ps with
  | nil =>
      intro e
      refine ⟨rfl, rfl, fun p hp => Or.inl hp, by simp [boardLoop], ?_⟩
      intro hcap
      exact hcap
  | cons p rest ih =>
      intro e
      unfold boardLoop
      by_cases hfull : e.isFull
      · rw [if_pos hfull]
        exact ⟨rfl, rfl, fun q hq => Or.inl hq, fun q hq => hq, fun hcap => hcap⟩
      · rw [if_neg hfull]
        have h := ih (e.load p)
        refine ⟨h.1, h.2.1, ?_, ?_, ?_⟩
        · intro q hq
          rcases h.2.2.1 q hq with hq1 | hq1
          · unfold Elevator.load at hq1
            rcases List.mem_append.mp hq1 with hq2 | hq2
            · exact Or.inl hq2
            · right; rw [List.mem_singleton.mp hq2]; exact List.mem_cons_self p rest
          · exact Or.inr (List.mem_cons_of_mem p hq1)
        · intro q hq
          exact List.mem_cons_of_mem p (h.2.2.2.1 q hq)
        · intro hcap
          apply h.2.2.2.2
          unfold Elevator.load
          have hne : (e.passengers.length : Int) ≠ e.max_capacity := by
            intro he
            apply hfull
            unfold Elevator.isFull
            exact beq_iff_eq.mpr he
          simp only [List.length_append, List.length_singleton]
          push_cast
          omega

theorem boardElevators_spec :
    ∀ (es : List Elevator) (w : Waiting) (r : List Elevator × Waiting),
      boardElevators es w = some r →
      keysOf r.2 = keysOf w ∧
      (∀ p, inWaiting r.2 p → inWaiting w p) ∧
      List.Forall₂ (fun e e1 =>
        e1.current_floor = e.current_floor ∧
        e1.max_capacity = e.max_capacity ∧
        (∀ p ∈ e1.passengers, p ∈ e.passengers ∨ inWaiting w p) ∧
        ((e.passengers.length : Int) ≤ e.max_capacity →
          (e1.passengers.length : Int) ≤ e1.max_capacity)) es r.1 := by
  intro es
  induction es with
  | nil =>
      intro w r h
      simp [boardElevators] at h
      rw [← h]
      exact ⟨rfl, fun p hp => hp, List.Forall₂.nil⟩
  | cons e rest ih =>
      intro w r h
      unfold boardElevators at h
      cases hl : lookupFloor w e.current_floor with
      | none => rw [hl] at h; simp at h
      | some people =>
          rw [hl] at h
          simp only at h
          cases hrec : boardElevators rest (setAt w e.current_floor (boardLoop e people).2) with
          | none => rw [hrec] at h; simp at h
          | some pr =>
              rw [hrec] at h
              simp only [Option.some.injEq] at h
              subst h
              have hb := boardLoop_spec people e
              have hi := ih _ _ hrec
              have hkeys : keysOf pr.2 = keysOf w := by
                rw [hi.1, keysOf_setAt]
              have hsub : ∀ p, inWaiting pr.2 p → inWaiting w p := by
                intro p hp
                rcases inWaiting_setAt (hi.2.1 p hp) with h1 | h1
                · exact h1
                · exact lookupFloor_sub hl p (hb.2.2.2.1 p h1)
              refine ⟨hkeys, hsub, List.Forall₂.cons ⟨hb.1, hb.2.1, ?_, hb.2.2.2.2⟩ ?_⟩
              · intro p hp
                rcases hb.2.2.1 p hp with h1 | h1
                · exact Or.inl h1
                · exact Or.inr (lookupFloor_sub hl p h1)
              · refine forall2_imp_mem hi.2.2 ?_
                intro e2 e3 he2 hr
                refine ⟨hr.1, hr.2.1, ?_, hr.2.2.2⟩
                intro p hp
                rcases hr.2.2.1 p hp with h1 | h1
                · exact Or.inl h1
                · rcases inWaiting_setAt h1 with h2 | h2
                  · exact Or.inr h2
                  · exact Or.inr (lookupFloor_sub hl p (hb.2.2.2.1 p h2))

theorem handleBoardingState_props {s s1 : SimState}
    (h : handleBoardingState s = some s1) :
    keysOf s1.waiting = keysOf s.waiting ∧
    (∀ p, inWaiting s1.waiting p → inWaiting s.waiting p) ∧
    s1.total_people = s.total_people ∧
    s1.total_completed = s.total_completed ∧ s1.times = s.times ∧
    List.Forall₂ (fun e e1 =>
      e1.current_floor = e.current_floor ∧
      e1.max_capacity = e.max_capacity ∧
      (∀ p ∈ e1.passengers, p ∈ e.passengers ∨ inWaiting s.waiting p) ∧
      ((e.passengers.length : Int) ≤ e.max_capacity →
        (e1.passengers.length : Int) ≤ e1.max_capacity)) s.elevators s1.elevators := by
  unfold handleBoardingState at h
  cases hb : boardElevators s.elevators s.waiting with
  | none => rw [hb] at h; simp at h
  | some r =>
      rw [hb] at h
      simp only [Option.some.injEq] at h
      subst h
      have hs := boardElevators_spec s.elevators s.waiting r hb
      exact ⟨hs.1, hs.2.1, rfl, rfl, rfl, hs.2.2⟩

/-!
## Stage lemmas: moving and aging
-/

theorem applyDirections_spec {mf : Int} :
    ∀ {es : List Elevator} {ds : List Direction},
      List.Forall₂ (BoundaryOK mf) es ds →
      (∀ e ∈ es, ElevRangeOK mf e) → 2 ≤ mf →
      ∀ e1 ∈ applyDirections es ds,
        ElevRangeOK mf e1 ∧
          ∃ e ∈ es, e1.passengers = e.passengers ∧
            e1.max_capacity = e.max_capacity := by
  intro es ds h
  induction h with
  | nil => intro _ _ e1 he1; simp [applyDirections] at he1
  | @cons e d es2 ds2 hed htail ih =>
      intro hr hmf e1 he1
      rw [show applyDirections (e :: es2) (d :: ds2)
          = applyDirection e d :: applyDirections es2 ds2 from rfl] at he1
      rcases List.mem_cons.mp he1 with rfl | he2
      · have hre := hr e (List.mem_cons_self e es2)
        refine ⟨?_, e, List.mem_cons_self e es2, ?_, ?_⟩
        · cases d with
          | up =>
              have : e.current_floor ≠ mf := by
                intro he
                exact hed.2 he rfl
              unfold applyDirection Elevator.move ElevRangeOK
              constructor
              · show (1 : Int) ≤ e.current_floor + 1
                have := hre.1
                omega
              · show e.current_floor + 1 ≤ mf
                have h1 := hre.2
                omega
          | down =>
              have : e.current_floor ≠ 1 := by
                intro he
                exact hed.1 he rfl
              unfold applyDirection Elevator.move ElevRangeOK
              constructor
              · show (1 : Int) ≤ e.current_floor + -1
                have := hre.1
                omega
              · show e.current_floor + -1 ≤ mf
                have := hre.2
                omega
          | stay => exact hre
        · cases d <;> rfl
        · cases d <;> rfl
      · rcases ih (fun e2 he2 => hr e2 (List.mem_cons_of_mem e he2)) hmf e1 he2
          with ⟨hrange, e2, he2m, hp⟩
        exact ⟨hrange, e2, List.mem_cons_of_mem e he2m, hp⟩

theorem moveElevatorsState_props {moveFn : Nat → List Elevator → Waiting →
    Int → Option (List Direction)} {r : Nat} {nf : Int} {s s1 : SimState}
    (h : moveElevatorsState moveFn r nf s = some s1) :
    s1.waiting = s.waiting ∧ s1.total_people = s.total_people ∧
    s1.total_completed = s.total_completed ∧ s1.times = s.times ∧
    ∃ ds, moveFn r s.elevators s.waiting nf = some ds ∧
      s1.elevators = applyDirections s.elevators ds := by
  unfold moveElevatorsState at h
  cases hm : moveFn r s.elevators s.waiting nf with
  | none => rw [hm] at h; simp at h
  | some ds =>
      rw [hm] at h
      simp only [Option.some.injEq] at h
      subst h
      exact ⟨rfl, rfl, rfl, rfl, ds, rfl, rfl⟩

theorem increaseAllWaitTimes_props (s : SimState) :
    keysOf (increaseAllWaitTimes s).waiting = keysOf s.waiting ∧
    (increaseAllWaitTimes s).total_people = s.total_people ∧
    (increaseAllWaitTimes s).total_completed = s.total_completed ∧
    (increaseAllWaitTimes s).times = s.times ∧
    (∀ q, inWaiting (increaseAllWaitTimes s).waiting q →
      ∃ q0, inWaiting s.waiting q0 ∧ q = agePerson q0) ∧
    (increaseAllWaitTimes s).elevators = s.elevators.map
      (fun e => { e with passengers := e.passengers.map agePerson }) := by
  refine ⟨?_, rfl, rfl, rfl, ?_, rfl⟩
  · unfold increaseAllWaitTimes keysOf
    rw [List.map_map]
    rfl
  · intro q hq
    rcases hq with ⟨kv, hkv, hqm⟩
    unfold increaseAllWaitTimes at hkv
    simp only at hkv
    rcases List.mem_map.mp hkv with ⟨kv0, hkv0, hkve⟩
    rw [← hkve] at hqm
    simp only at hqm
    rcases List.mem_map.mp hqm with ⟨q0, hq0, hq0e⟩
    exact ⟨q0, ⟨kv0, hkv0, hq0⟩, hq0e.symm⟩

/-!
## The claimed run-time invariant
-/

/-- The claim's per-elevator invariant: passengers within capacity and
current floor within the building. -/
def ElevInv (nf : Int) (e : Elevator) : Prop :=
  (e.passengers.length : Int) ≤ e.max_capacity ∧
    1 ≤ e.current_floor ∧ e.current_floor ≤ nf

/-- The claim's invariant, over all elevators of a state. -/
def ElevsInv (nf : Int) (s : SimState) : Prop :=
  ∀ e ∈ s.elevators, ElevInv nf e

/-- The registry key list built by `Simulation.__init__`. -/
def floorKeys (nf : Int) : List Int :=
  (List.range nf.toNat).map (fun (i : Nat) => (i : Int) + 1)

theorem mem_floorKeys {nf k : Int} :
    k ∈ floorKeys nf ↔ 1 ≤ k ∧ k ≤ nf := by
  unfold floorKeys
  simp only [List.mem_map, List.mem_range]
  constructor
  · rintro ⟨i, hi, rfl⟩
    have h2 : (nf.toNat : Int) = max nf 0 := Int.toNat_eq_max nf
    have h3 : (i : Int) < (nf.toNat : Int) := by exact_mod_cast hi
    omega
  · intro ⟨h1, h2⟩
    refine ⟨(k - 1).toNat, ?_, ?_⟩
    · have h3 : ((k - 1).toNat : Int) = max (k - 1) 0 := Int.toNat_eq_max _
      have h4 : (nf.toNat : Int) = max nf 0 := Int.toNat_eq_max nf
      have h5 : ((k - 1).toNat : Int) < (nf.toNat : Int) := by omega
      exact_mod_cast h5
    · have h3 : ((k - 1).toNat : Int) = max (k - 1) 0 := Int.toNat_eq_max _
      omega

/-- The full inductive invariant carried around a run: the registry keys
are exactly floors `1 .. nf`, every waiting person's target is in range,
and every elevator is within capacity, within the building, with all
aboard targets in range. -/
def FullInv (nf : Int) (s : SimState) : Prop :=
  keysOf s.waiting = floorKeys nf ∧
  (∀ p, inWaiting s.waiting p → 1 ≤ p.target ∧ p.target ≤ nf) ∧
  (∀ e ∈ s.elevators, ElevInv nf e ∧ TargetsOK nf e)

/-- The claim's hypothesis on the arrival policy: every produced person
has start and target floors in `[1, nf]` (both arrival-policy variants
key the returned dict by the person's start floor, so the dict key is the
start floor). -/
def ArrivalsOK (nf : Int) (genArr : Nat → Waiting) : Prop :=
  ∀ r, ∀ kv ∈ genArr r, (1 ≤ kv.1 ∧ kv.1 ≤ nf) ∧
    ∀ p ∈ kv.2, 1 ≤ p.start ∧ p.start ≤ nf ∧ 1 ≤ p.target ∧ p.target ≤ nf

theorem fullInv_generate {nf : Int} {genArr : Nat → Waiting} {r : Nat}
    {s s1 : SimState} (ha : ArrivalsOK nf genArr)
    (h : generateArrivalsState (genArr r) s = some s1)
    (hinv : FullInv nf s) : FullInv nf s1 := by
  have hp := generateArrivalsState_props (genArr r) s s1 h
  refine ⟨hp.2.2.2.1.trans hinv.1, ?_, ?_⟩
  · intro q hq
    rcases hp.2.2.2.2.2 q hq with h1 | h1
    · exact hinv.2.1 q h1
    · rcases h1 with ⟨kv, hkv, hq2⟩
      have := (ha r kv hkv).2 q hq2
      exact ⟨this.2.2.1, this.2.2.2⟩
  · rw [hp.1]
    exact hinv.2.2

theorem fullInv_leaving {nf : Int} {s : SimState} (hinv : FullInv nf s) :
    FullInv nf (handleLeavingState s) := by
  rw [handleLeavingState_spec]
  refine ⟨hinv.1, hinv.2.1, ?_⟩
  intro e1 he1
  simp only [List.mem_map] at he1
  rcases he1 with ⟨e, he, hee⟩
  have hi := hinv.2.2 e he
  subst hee
  refine ⟨⟨?_, hi.1.2.1, hi.1.2.2⟩, ?_⟩
  · calc ((survivors e).length : Int)
        ≤ (e.passengers.length : Int) := by
          exact_mod_cast List.length_filter_le _ _
      _ ≤ e.max_capacity := hi.1.1
  · intro p hp
    exact hi.2 p (List.mem_of_mem_filter hp)

theorem fullInv_boarding {nf : Int} {s s1 : SimState}
    (h : handleBoardingState s = some s1) (hinv : FullInv nf s) :
    FullInv nf s1 := by
  have hp := handleBoardingState_props h
  refine ⟨hp.1.trans hinv.1, ?_, ?_⟩
  · intro q hq
    exact hinv.2.1 q (hp.2.1 q hq)
  · intro e1 he1
    rcases forall2_mem_right hp.2.2.2.2.2 e1 he1 with ⟨e, he, hr⟩
    have hi := hinv.2.2 e he
    refine ⟨⟨hr.2.2.2 hi.1.1, ?_, ?_⟩, ?_⟩
    · rw [hr.1]; exact hi.1.2.1
    · rw [hr.1]; exact hi.1.2.2
    · intro p hpm
      rcases hr.2.2.1 p hpm with h1 | h1
      · exact hi.2 p h1
      · exact hinv.2.1 p h1

theorem fullInv_moving {nf : Int} {p : Policy} {r : Nat} {s s1 : SimState}
    (hmf : 2 ≤ nf) (h : moveElevatorsState (Policy.move p) r nf s = some s1)
    (hinv : FullInv nf s) : FullInv nf s1 := by
  have hp := moveElevatorsState_props h
  rcases hp.2.2.2.2 with ⟨ds, hds, he⟩
  have hk : KeysOK nf s.waiting := by
    intro k hk
    rw [hinv.1] at hk
    exact mem_floorKeys.mp hk
  have ht : ∀ e ∈ s.elevators, TargetsOK nf e := fun e hee => (hinv.2.2 e hee).2
  have hb := policy_move_boundary hmf hk ht hds
  have happ := applyDirections_spec hb
    (fun e hee => (hinv.2.2 e hee).1.2) hmf
  refine ⟨?_, ?_, ?_⟩
  · rw [hp.1]; exact hinv.1
  · rw [hp.1]; exact hinv.2.1
  · intro e1 he1
    rw [he] at he1
    rcases happ e1 he1 with ⟨hrange, e, hem, hpass, hcap⟩
    have hi := hinv.2.2 e hem
    refine ⟨⟨?_, hrange.1, hrange.2⟩, ?_⟩
    · rw [hpass, hcap]; exact hi.1.1
    · intro q hq
      rw [hpass] at hq
      exact hi.2 q hq

theorem fullInv_aging {nf : Int} {s : SimState} (hinv : FullInv nf s) :
    FullInv nf (increaseAllWaitTimes s) := by
  have hp := increaseAllWaitTimes_props s
  refine ⟨hp.1.trans hinv.1, ?_, ?_⟩
  · intro q hq
    rcases hp.2.2.2.2.1 q hq with ⟨q0, hq0, hqe⟩
    have := hinv.2.1 q0 hq0
    rw [hqe]
    exact this
  · intro e1 he1
    rw [hp.2.2.2.2.2] at he1
    rcases List.mem_map.mp he1 with ⟨e, he, hee⟩
    have hi := hinv.2.2 e he
    subst hee
    refine ⟨⟨?_, hi.1.2.1, hi.1.2.2⟩, ?_⟩
    · simpa using hi.1.1
    · intro q hq
      rcases List.mem_map.mp hq with ⟨q0, hq0, hqe⟩
      rw [← hqe]
      exact hi.2 q0 hq0

theorem fullInv_init {nf : Int} (ne : Nat) {cap : Int} (hnf : 2 ≤ nf)
    (hcap : 0 ≤ cap) : FullInv nf (simInit nf ne cap) := by
  refine ⟨?_, ?_, ?_⟩
  · unfold simInit keysOf floorKeys
    rw [List.map_map]
    rfl
  · intro q hq
    rcases hq with ⟨kv, hkv, hqm⟩
    unfold simInit at hkv
    simp only at hkv
    rcases List.mem_map.mp hkv with ⟨i, _, hie⟩
    rw [← hie] at hqm
    simp at hqm
  · intro e he
    unfold simInit at he
    simp only at he
    have he2 := List.eq_of_mem_replicate he
    subst he2
    exact ⟨⟨by simpa [Elevator.init] using hcap, by simp [Elevator.init],
      by simp [Elevator.init]; omega⟩, by simp [Elevator.init, TargetsOK]⟩

theorem fullInv_round {nf : Int} {p : Policy} {genArr : Nat → Waiting}
    {r : Nat} {s s1 : SimState} (hnf : 2 ≤ nf) (ha : ArrivalsOK nf genArr)
    (h : simRound genArr (Policy.move p) nf r s = some s1)
    (hinv : FullInv nf s) : FullInv nf s1 := by
  unfold simRound at h
  cases h1 : generateArrivalsState (genArr r) s with
  | none => rw [h1] at h; simp at h
  | some sa =>
      rw [h1] at h
      dsimp only at h
      cases h2 : handleBoardingState (handleLeavingState sa) with
      | none => rw [h2] at h; simp at h
      | some sb =>
          rw [h2] at h
          dsimp only at h
          cases h3 : moveElevatorsState (Policy.move p) r nf sb with
          | none => rw [h3] at h; simp at h
          | some sc =>
              rw [h3] at h
              dsimp only at h
              simp only [Option.some.injEq] at h
              subst h
              exact fullInv_aging (fullInv_moving hnf h3
                (fullInv_boarding h2 (fullInv_leaving
                  (fullInv_generate ha h1 hinv))))

theorem fullInv_runRounds {nf : Int} {p : Policy} {genArr : Nat → Waiting}
    (hnf : 2 ≤ nf) (ha : ArrivalsOK nf genArr) :
    ∀ (count r : Nat) (s s1 : SimState),
      runRounds genArr (Policy.move p) nf r count s = some s1 →
      FullInv nf s → FullInv nf s1 := by
  intro count
  induction count with
  | zero =>
      intro r s s1 h hinv
      unfold runRounds at h
      simp only [Option.some.injEq] at h
      subst h
      exact hinv
  | succ c ih =>
      intro r s s1 h hinv
      unfold runRounds at h
      cases h1 : simRound genArr (Policy.move p) nf r s with
      | none => rw [h1] at h; simp at h
      | some s2 =>
          rw [h1] at h
          exact ih (r + 1) s2 s1 h (fullInv_round hnf ha h1 hinv)

theorem simRound_dest {genArr : Nat → Waiting}
    {moveFn : Nat → List Elevator → Waiting → Int → Option (List Direction)}
    {nf : Int} {r : Nat} {s s1 : SimState}
    (h : simRound genArr moveFn nf r s = some s1) :
    ∃ sa sb sc, generateArrivalsState (genArr r) s = some sa ∧
      handleBoardingState (handleLeavingState sa) = some sb ∧
      moveElevatorsState moveFn r nf sb = some sc ∧
      s1 = increaseAllWaitTimes sc := by
  unfold simRound at h
  cases h1 : generateArrivalsState (genArr r) s with
  | none => rw [h1] at h; simp at h
  | some sa =>
      rw [h1] at h
      dsimp only at h
      cases h2 : handleBoardingState (handleLeavingState sa) with
      | none => rw [h2] at h; simp at h
      | some sb =>
          rw [h2] at h
          dsimp only at h
          cases h3 : moveElevatorsState moveFn r nf sb with
          | none => rw [h3] at h; simp at h
          | some sc =>
              rw [h3] at h
              dsimp only at h
              simp only [Option.some.injEq] at h
              refine ⟨sa, sb, sc, ?_, ?_, ?_, h.symm⟩ <;>
                first
                | rfl
                | assumption

/-!
## Accounting: counters and recorded times across a run
-/

theorem handleLeavingState_accounting (s : SimState) :
    (handleLeavingState s).times
        = s.times ++ (leavingElevators s.elevators).2 ∧
      (handleLeavingState s).total_completed
        = s.total_completed + (leavingElevators s.elevators).2.length ∧
      (handleLeavingState s).total_people = s.total_people := by
  exact ⟨rfl, rfl, rfl⟩

theorem simRound_accounting {genArr : Nat → Waiting}
    {moveFn : Nat → List Elevator → Waiting → Int → Option (List Direction)}
    {nf : Int} {r : Nat} {s s1 : SimState}
    (h : simRound genArr moveFn nf r s = some s1) :
    s1.total_people = s.total_people + countArrivals (genArr r) ∧
    ∃ ts : List Int, s1.times = s.times ++ ts ∧
      s1.total_completed = s.total_completed + ts.length := by
  rcases simRound_dest h with ⟨sa, sb, sc, h1, h2, h3, h4⟩
  have ha := generateArrivalsState_props (genArr r) s sa h1
  have hl := handleLeavingState_accounting sa
  have hb := handleBoardingState_props h2
  have hm := moveElevatorsState_props h3
  have hage := increaseAllWaitTimes_props sc
  constructor
  · rw [h4, hage.2.1, hm.2.1, hb.2.2.1, hl.2.2, ha.2.2.2.2.1]
  · refine ⟨(leavingElevators sa.elevators).2, ?_, ?_⟩
    · rw [h4, hage.2.2.2.1, hm.2.2.2.1, hb.2.2.2.2.1, hl.1, ha.2.2.1]
    · rw [h4, hage.2.2.1, hm.2.2.1, hb.2.2.2.1, hl.2.1, ha.2.1]

theorem runRounds_accounting {genArr : Nat → Waiting}
    {moveFn : Nat → List Elevator → Waiting → Int → Option (List Direction)}
    {nf : Int} :
    ∀ (count r : Nat) (s s1 : SimState),
      runRounds genArr moveFn nf r count s = some s1 →
      s1.total_people = s.total_people +
        ((List.range count).map (fun j => countArrivals (genArr (r + j)))).sum ∧
      ∃ ts : List Int, s1.times = s.times ++ ts ∧
        s1.total_completed = s.total_completed + ts.length := by
  intro count
  induction count with
  | zero =>
      intro r s s1 h
      unfold runRounds at h
      simp only [Option.some.injEq] at h
      subst h
      exact ⟨by simp, [], by simp, by simp⟩
  | succ c ih =>
      intro r s s1 h
      unfold runRounds at h
      cases h1 : simRound genArr moveFn nf r s with
      | none => rw [h1] at h; simp at h
      | some s2 =>
          rw [h1] at h
          have hstep := simRound_accounting h1
          have hrest := ih (r + 1) s2 s1 h
          constructor
          · rw [hrest.1, hstep.1]
            have hsum :
                ((List.range (c + 1)).map
                    (fun j => countArrivals (genArr (r + j)))).sum
                  = countArrivals (genArr r) +
                    ((List.range c).map
                      (fun j => countArrivals (genArr (r + 1 + j)))).sum := by
              rw [List.range_succ_eq_map, List.map_cons, List.sum_cons,
                List.map_map]
              have hfun : ((fun j => countArrivals (genArr (r + j))) ∘ Nat.succ)
                  = fun j => countArrivals (genArr (r + 1 + j)) := by
                funext j
                have : r + Nat.succ j = r + 1 + j := by omega
                simp [Function.comp, this]
              rw [hfun]
              simp
            rw [hsum]
            omega
          · rcases hstep.2 with ⟨ts1, hts1, hc1⟩
            rcases hrest.2 with ⟨ts2, hts2, hc2⟩
            refine ⟨ts1 ++ ts2, ?_, ?_⟩
            · rw [hts2, hts1, List.append_assoc]
            · rw [hc2, hc1]
              simp [List.length_append]
              omega

theorem foldl_min_spec :
    ∀ (xs : List Int) (a : Int),
      (xs.foldl min a = a ∨ xs.foldl min a ∈ xs) ∧
        xs.foldl min a ≤ a ∧ ∀ x ∈ xs, xs.foldl min a ≤ x := by
  intro xs
  induction xs with
  | nil => intro a; simp
  | cons x xs ih =>
      intro a
      have h := ih (min a x)
      rw [List.foldl_cons]
      refine ⟨?_, ?_, ?_⟩
      · rcases h.1 with h1 | h1
        · rcases min_choice a x with hm | hm
          · left; rw [h1, hm]
          · right; rw [h1, hm]; exact List.mem_cons_self x xs
        · right; exact List.mem_cons_of_mem x h1
      · exact le_trans h.2.1 (min_le_left a x)
      · intro y hy
        rcases List.mem_cons.mp hy with rfl | hy2
        · exact le_trans h.2.1 (min_le_right a y)
        · exact h.2.2 y hy2

theorem maxL_spec {l : List Int} (h : l ≠ []) :
    maxL l ∈ l ∧ ∀ x ∈ l, x ≤ maxL l := by
  cases l with
  | nil => exact absurd rfl h
  | cons x xs =>
      rw [show maxL (x :: xs) = xs.foldl max x from rfl]
      have hs := foldl_max_spec xs x
      constructor
      · rcases hs.1 with h1 | h1
        · rw [h1]; exact List.mem_cons_self x xs
        · exact List.mem_cons_of_mem x h1
      · intro y hy
        rcases List.mem_cons.mp hy with rfl | hy2
        · exact hs.2.1
        · exact hs.2.2 y hy2

theorem minL_spec {l : List Int} (h : l ≠ []) :
    minL l ∈ l ∧ ∀ x ∈ l, minL l ≤ x := by
  cases l with
  | nil => exact absurd rfl h
  | cons x xs =>
      rw [show minL (x :: xs) = xs.foldl min x from rfl]
      have hs := foldl_min_spec xs x
      constructor
      · rcases hs.1 with h1 | h1
        · rw [h1]; exact List.mem_cons_self x xs
        · exact List.mem_cons_of_mem x h1
      · intro y hy
        rcases List.mem_cons.mp hy with rfl | hy2
        · exact hs.2.1
        · exact hs.2.2 y hy2

/-!
## Wait-time lower bound machinery
-/

/-- Wait-time invariant at round boundaries: everyone aboard has already
been aged at least once, everyone waiting has a non-negative wait time,
and all recorded times are at least 1. -/
def WaitInv (s : SimState) : Prop :=
  (∀ e ∈ s.elevators, ∀ p ∈ e.passengers, 1 ≤ p.wait_time) ∧
  (∀ p, inWaiting s.waiting p → 0 ≤ p.wait_time) ∧
  (∀ t ∈ s.times, 1 ≤ t)

/-- The arrival policies construct every `Person` fresh, with
`wait_time = 0` (see `Person.__init__`). -/
def ArrivalsFresh (genArr : Nat → Waiting) : Prop :=
  ∀ r, ∀ kv ∈ genArr r, ∀ p ∈ kv.2, p.wait_time = 0

theorem applyDirections_passengers :
    ∀ (es : List Elevator) (ds : List Direction),
      ∀ e1 ∈ applyDirections es ds, ∃ e ∈ es, e1.passengers = e.passengers := by
  intro es
  induction es with
  | nil => intro ds e1 he1; simp [applyDirections] at he1
  | cons e rest ih =>
      intro ds e1 he1
      cases ds with
      | nil =>
          refine ⟨e1, ?_, rfl⟩
          simpa [applyDirections] using he1
      | cons d ds2 =>
          rw [show applyDirections (e :: rest) (d :: ds2)
              = applyDirection e d :: applyDirections rest ds2 from rfl] at he1
          rcases List.mem_cons.mp he1 with rfl | he2
          · refine ⟨e, List.mem_cons_self e rest, ?_⟩
            cases d <;> rfl
          · rcases ih ds2 e1 he2 with ⟨e2, he2m, hp⟩
            exact ⟨e2, List.mem_cons_of_mem e he2m, hp⟩

theorem waitInv_round {genArr : Nat → Waiting}
    {moveFn : Nat → List Elevator → Waiting → Int → Option (List Direction)}
    {nf : Int} {r : Nat} {s s1 : SimState} (hfresh : ArrivalsFresh genArr)
    (h : simRound genArr moveFn nf r s = some s1) (hinv : WaitInv s) :
    WaitInv s1 := by
  rcases simRound_dest h with ⟨sa, sb, sc, h1, h2, h3, h4⟩
  have ha := generateArrivalsState_props (genArr r) s sa h1
  have hWa : WaitInv sa := by
    refine ⟨?_, ?_, ?_⟩
    · rw [ha.1]; exact hinv.1
    · intro p hp
      rcases ha.2.2.2.2.2 p hp with hp1 | hp1
      · exact hinv.2.1 p hp1
      · rcases hp1 with ⟨kv, hkv, hpm⟩
        rw [hfresh r kv hkv p hpm]
    · rw [ha.2.2.1]; exact hinv.2.2
  have hWl : (∀ e ∈ (handleLeavingState sa).elevators,
        ∀ p ∈ e.passengers, 1 ≤ p.wait_time) ∧
      (∀ p, inWaiting (handleLeavingState sa).waiting p → 0 ≤ p.wait_time) ∧
      (∀ t ∈ (handleLeavingState sa).times, 1 ≤ t) := by
    rw [handleLeavingState_spec]
    refine ⟨?_, hWa.2.1, ?_⟩
    · intro e1 he1
      rcases List.mem_map.mp he1 with ⟨e, he, hee⟩
      subst hee
      intro p hp
      exact hWa.1 e he p (List.mem_of_mem_filter hp)
    · intro t ht
      rcases List.mem_append.mp ht with ht1 | ht1
      · exact hWa.2.2 t ht1
      · rcases List.mem_flatten.mp ht1 with ⟨l, hl, htl⟩
        rcases List.mem_map.mp hl with ⟨e, he, hle⟩
        rw [← hle] at htl
        rcases List.mem_map.mp htl with ⟨p, hpm, hpt⟩
        have hpm2 : p ∈ arrivedOf e := List.mem_reverse.mp hpm
        rw [← hpt]
        exact hWa.1 e he p (List.mem_of_mem_filter hpm2)
  have hb := handleBoardingState_props h2
  have hWb : (∀ e ∈ sb.elevators, ∀ p ∈ e.passengers, 0 ≤ p.wait_time) ∧
      (∀ p, inWaiting sb.waiting p → 0 ≤ p.wait_time) ∧
      (∀ t ∈ sb.times, 1 ≤ t) := by
    refine ⟨?_, ?_, ?_⟩
    · intro e1 he1 p hp
      rcases forall2_mem_right hb.2.2.2.2.2 e1 he1 with ⟨e, he, hr⟩
      rcases hr.2.2.1 p hp with hp1 | hp1
      · exact le_trans (by omega) (hWl.1 e he p hp1)
      · exact hWl.2.1 p hp1
    · intro p hp
      exact hWl.2.1 p (hb.2.1 p hp)
    · rw [hb.2.2.2.2.1]; exact hWl.2.2
  have hm := moveElevatorsState_props h3
  rcases hm.2.2.2.2 with ⟨ds, _, hes⟩
  have hWc : (∀ e ∈ sc.elevators, ∀ p ∈ e.passengers, 0 ≤ p.wait_time) ∧
      (∀ p, inWaiting sc.waiting p → 0 ≤ p.wait_time) ∧
      (∀ t ∈ sc.times, 1 ≤ t) := by
    refine ⟨?_, ?_, ?_⟩
    · intro e1 he1 p hp
      rw [hes] at he1
      rcases applyDirections_passengers sb.elevators ds e1 he1 with ⟨e, he, hpe⟩
      rw [hpe] at hp
      exact hWb.1 e he p hp
    · intro p hp
      rw [hm.1] at hp
      exact hWb.2.1 p hp
    · rw [hm.2.2.2.1]; exact hWb.2.2
  have hage := increaseAllWaitTimes_props sc
  rw [h4]
  refine ⟨?_, ?_, ?_⟩
  · intro e1 he1 p hp
    rw [hage.2.2.2.2.2] at he1
    rcases List.mem_map.mp he1 with ⟨e, he, hee⟩
    rw [← hee] at hp
    simp only at hp
    rcases List.mem_map.mp hp with ⟨p0, hp0, hpe⟩
    have := hWc.1 e he p0 hp0
    rw [← hpe]
    unfold agePerson
    simp only
    omega
  · intro p hp
    rcases hage.2.2.2.2.1 p hp with ⟨p0, hp0, hpe⟩
    have := hWc.2.1 p0 hp0
    rw [hpe]
    unfold agePerson
    simp only
    omega
  · rw [hage.2.2.2.1]
    exact hWc.2.2

theorem waitInv_runRounds {genArr : Nat → Waiting}
    {moveFn : Nat → List Elevator → Waiting → Int → Option (List Direction)}
    {nf : Int} (hfresh : ArrivalsFresh genArr) :
    ∀ (count r : Nat) (s s1 : SimState),
      runRounds genArr moveFn nf r count s = some s1 →
      WaitInv s → WaitInv s1 := by
  intro count
  induction count with
  | zero =>
      intro r s s1 h hinv
      unfold runRounds at h
      simp only [Option.some.injEq] at h
      subst h
      exact hinv
  | succ c ih =>
      intro r s s1 h hinv
      unfold runRounds at h
      cases h1 : simRound genArr moveFn nf r s with
      | none => rw [h1] at h; simp at h
      | some s2 =>
          rw [h1] at h
          exact ih (r + 1) s2 s1 h (waitInv_round hfresh h1 hinv)

theorem waitInv_init (nf : Int) (ne : Nat) (cap : Int) :
    WaitInv (simInit nf ne cap) := by
  refine ⟨?_, ?_, ?_⟩
  · intro e he p hp
    unfold simInit at he
    simp only at he
    have := List.eq_of_mem_replicate he
    subst this
    simp [Elevator.init] at hp
  · intro p hp
    rcases hp with ⟨kv, hkv, hpm⟩
    unfold simInit at hkv
    simp only at hkv
    rcases List.mem_map.mp hkv with ⟨i, _, hie⟩
    rw [← hie] at hpm
    simp at hpm
  · intro t ht
    unfold simInit at ht
    simp at ht

/-!
## FileArrivals construction and lookup
-/

theorem mapOpt_id_none_of_mem :
    ∀ {l : List (Option α)}, none ∈ l → mapOpt id l = none := by
  intro l
  induction l with
  | nil => intro h; simp at h
  | cons a as ih =>
      intro h
      rcases List.mem_cons.mp h with rfl | h2
      · rfl
      · unfold mapOpt
        rw [ih h2]
        cases a <;> rfl

theorem pairUp_none_of_odd :
    ∀ (l : List Int), l.length % 2 = 1 → pairUp l = none
  | [], h => by simp at h
  | [_], _ => rfl
  | a :: b :: rest, h => by
      have hr : rest.length % 2 = 1 := by
        have : (a :: b :: rest).length = rest.length + 2 := by simp
        omega
      show (match pairUp rest with
        | none => none
        | some ps => some ((a, b) :: ps)) = none
      rw [pairUp_none_of_odd rest hr]

theorem pairUp_isSome_of_even :
    ∀ (l : List Int), l.length % 2 = 0 → (pairUp l).isSome
  | [], _ => by simp [pairUp]
  | [_], h => by simp at h
  | a :: b :: rest, h => by
      have hr : rest.length % 2 = 0 := by
        have : (a :: b :: rest).length = rest.length + 2 := by simp
        omega
      have := pairUp_isSome_of_even rest hr
      show (match pairUp rest with
        | none => none
        | some ps => some ((a, b) :: ps)).isSome
      cases hp : pairUp rest with
      | none => rw [hp] at this; simp at this
      | some ps => simp

/-- The per-row body of the `FileArrivals.__init__` loop. -/
def rowStep (store : List (Int × List (Int × Int))) (line : List Token) :
    Option (List (Int × List (Int × Int))) :=
  match parseRow line with
  | none => none
  | some clean =>
      match clean with
      | [] => none
      | key :: rest =>
          match pairUp rest with
          | none => none
          | some ps => some (storeInsert store key ps)

theorem fileArrivalsInit_eq_fold (source : List (List Token)) :
    fileArrivalsInit source = source.foldlM rowStep [] := by
  unfold fileArrivalsInit rowStep
  rfl

theorem foldlM_none_of_mem {f : β → α → Option β} {l : List α} {a : α}
    (ha : a ∈ l) (hf : ∀ b, f b a = none) :
    ∀ s, l.foldlM f s = none := by
  induction l with
  | nil => simp at ha
  | cons x xs ih =>
      intro s
      rw [List.foldlM_cons]
      rcases List.mem_cons.mp ha with rfl | h2
      · rw [hf s]
        rfl
      · cases hx : f s x with
        | none => rfl
        | some b =>
            simp only [Option.bind_eq_bind, Option.some_bind]
            exact ih h2 b

theorem rowStep_none_of_badToken {line : List Token}
    (h : none ∈ line) : ∀ store, rowStep store line = none := by
  intro store
  unfold rowStep parseRow
  rw [mapOpt_id_none_of_mem h]

theorem rowStep_none_of_odd {line : List Token}
    (h : (line.length - 1) % 2 = 1) : ∀ store, rowStep store line = none := by
  intro store
  unfold rowStep
  cases hp : parseRow line with
  | none => rfl
  | some clean =>
      have hlen : clean.length = line.length :=
        (mapOpt_forall2 hp).length_eq.symm
      cases clean with
      | nil =>
          rfl
      | cons key rest =>
          have hrest : rest.length % 2 = 1 := by
            have : (key :: rest).length = rest.length + 1 := by simp
            omega
          dsimp only
          rw [pairUp_none_of_odd rest hrest]

/-- A well-formed scripted source: every row has a key field, all fields
parse as integers, and the fields after the key pair up evenly. -/
def WellFormedSource (source : List (List Token)) : Prop :=
  ∀ row ∈ source, row ≠ [] ∧ (∀ t ∈ row, t.isSome) ∧
    (row.length - 1) % 2 = 0

theorem rowStep_isSome_of_wf {line : List Token} (hne : line ≠ [])
    (hsome : ∀ t ∈ line, t.isSome) (heven : (line.length - 1) % 2 = 0) :
    ∀ store, (rowStep store line).isSome := by
  intro store
  unfold rowStep
  have hp : (parseRow line).isSome := by
    unfold parseRow
    exact mapOpt_isSome hsome
  cases hpr : parseRow line with
  | none => rw [hpr] at hp; simp at hp
  | some clean =>
      have hlen : clean.length = line.length :=
        (mapOpt_forall2 hpr).length_eq.symm
      cases clean with
      | nil =>
          exfalso
          apply hne
          cases line with
          | nil => rfl
          | cons t ts => simp at hlen
      | cons key rest =>
          have hrest : rest.length % 2 = 0 := by
            have h1 : (key :: rest).length = rest.length + 1 := by simp
            have h2 : line.length ≠ 0 := by
              intro he
              rw [List.length_eq_zero] at he
              exact hne he
            omega
          have := pairUp_isSome_of_even rest hrest
          cases hpu : pairUp rest with
          | none => rw [hpu] at this; simp at this
          | some ps =>
              dsimp only
              rw [hpu]
              simp

theorem foldlM_isSome_of_all {f : β → α → Option β} :
    ∀ {l : List α}, (∀ a ∈ l, ∀ b, (f b a).isSome) →
      ∀ s, (l.foldlM f s).isSome := by
  intro l
  induction l with
  | nil => intro _ s; simp [List.foldlM]
  | cons x xs ih =>
      intro h s
      rw [List.foldlM_cons]
      have hx := h x (List.mem_cons_self x xs) s
      cases hfx : f s x with
      | none => rw [hfx] at hx; simp at hx
      | some b =>
          simp only [Option.bind_eq_bind, Option.some_bind]
          exact ih (fun a ha b2 => h a (List.mem_cons_of_mem x ha) b2) b

/-- A well-formed source constructs successfully. -/
theorem fileArrivalsInit_isSome {source : List (List Token)}
    (h : WellFormedSource source) : (fileArrivalsInit source).isSome := by
  rw [fileArrivalsInit_eq_fold]
  apply foldlM_isSome_of_all
  intro row hrow store
  rcases h row hrow with ⟨hne, hsome, heven⟩
  exact rowStep_isSome_of_wf hne hsome heven store

/-- Row `row` of the source carries round key `k`. -/
def RowKey (row : List Token) (k : Int) : Prop :=
  ∃ clean, parseRow row = some clean ∧ clean.head? = some k

theorem mem_storeInsert {d : List (Int × List (Int × Int))} {k k2 : Int}
    {v : List (Int × Int)} {v2 : List (Int × Int)}
    (h : (k2, v2) ∈ storeInsert d k v) : (k2, v2) ∈ d ∨ k2 = k := by
  induction d with
  | nil =>
      unfold storeInsert at h
      rcases List.mem_singleton.mp h with h1
      right
      exact congrArg Prod.fst h1
  | cons kv rest ih =>
      unfold storeInsert at h
      by_cases hk : kv.1 = k
      · rw [if_pos hk] at h
        rcases List.mem_cons.mp h with h1 | h1
        · right
          have := congrArg Prod.fst h1
          simp at this
          rw [this, hk]
        · exact Or.inl (List.mem_cons_of_mem kv h1)
      · rw [if_neg hk] at h
        rcases List.mem_cons.mp h with h1 | h1
        · left; rw [h1]; exact List.mem_cons_self kv rest
        · rcases ih h1 with h2 | h2
          · exact Or.inl (List.mem_cons_of_mem kv h2)
          · exact Or.inr h2

theorem rowStep_keys {store store1 : List (Int × List (Int × Int))}
    {line : List Token} (h : rowStep store line = some store1) :
    ∀ k v, (k, v) ∈ store1 → (k, v) ∈ store ∨ RowKey line k := by
  unfold rowStep at h
  cases hp : parseRow line with
  | none => rw [hp] at h; simp at h
  | some clean =>
      rw [hp] at h
      dsimp only at h
      cases clean with
      | nil => simp at h
      | cons key rest =>
          dsimp only at h
          cases hpu : pairUp rest with
          | none => rw [hpu] at h; simp at h
          | some ps =>
              rw [hpu] at h
              dsimp only at h
              simp only [Option.some.injEq] at h
              subst h
              intro k v hkv
              rcases mem_storeInsert hkv with h1 | h1
              · exact Or.inl h1
              · right
                exact ⟨key :: rest, hp, by rw [h1]; rfl⟩

theorem foldlM_keys {l : List (List Token)} :
    ∀ {store store1 : List (Int × List (Int × Int))},
      l.foldlM rowStep store = some store1 →
      ∀ k v, (k, v) ∈ store1 →
        (k, v) ∈ store ∨ ∃ row ∈ l, RowKey row k := by
  induction l with
  | nil =>
      intro store store1 h k v hkv
      simp [List.foldlM] at h
      subst h
      exact Or.inl hkv
  | cons row rest ih =>
      intro store store1 h k v hkv
      rw [List.foldlM_cons] at h
      cases hr : rowStep store row with
      | none => rw [hr] at h; simp at h
      | some store2 =>
          rw [hr] at h
          simp only [Option.bind_eq_bind, Option.some_bind] at h
          rcases ih h k v hkv with h1 | h1
          · rcases rowStep_keys hr k v h1 with h2 | h2
            · exact Or.inl h2
            · exact Or.inr ⟨row, List.mem_cons_self row rest, h2⟩
          · rcases h1 with ⟨row2, hrow2, hk2⟩
            exact Or.inr ⟨row2, List.mem_cons_of_mem row hrow2, hk2⟩

theorem storeLookup_none_of_not_mem {store : List (Int × List (Int × Int))}
    {r : Int} (h : ∀ v, (r, v) ∉ store) : storeLookup store r = none := by
  induction store with
  | nil => rfl
  | cons kv rest ih =>
      unfold storeLookup
      by_cases hk : kv.1 = r
      · exfalso
        apply h kv.2
        rw [← hk]
        exact List.mem_cons_self kv rest
      · rw [if_neg hk]
        exact ih (fun v hv => h v (List.mem_cons_of_mem kv hv))

/-- `generate` on a round key that is absent from the source yields the
empty dict. -/
theorem fileArrivalsGenerate_absent {source : List (List Token)}
    {store : List (Int × List (Int × Int))} {r : Int}
    (hinit : fileArrivalsInit source = some store)
    (habsent : ∀ row ∈ source, ¬ RowKey row r) :
    fileArrivalsGenerate store r = [] := by
  rw [fileArrivalsInit_eq_fold] at hinit
  have hlk : storeLookup store r = none := by
    apply storeLookup_none_of_not_mem
    intro v hv
    rcases foldlM_keys hinit r v hv with h1 | h1
    · simp at h1
    · rcases h1 with ⟨row, hrow, hk⟩
      exact habsent row hrow hk
  unfold fileArrivalsGenerate
  rw [hlk]

instance (nf : Int) (e : Elevator) : Decidable (ElevInv nf e) := by
  unfold ElevInv
  infer_instance

instance (nf : Int) (s : SimState) : Decidable (ElevsInv nf s) := by
  unfold ElevsInv
  infer_instance

theorem forall2_zip {R : α → β → Prop} :
    ∀ {l1 : List α} {l2 : List β}, List.Forall₂ R l1 l2 →
      ∀ pair ∈ l1.zip l2, R pair.1 pair.2 := by
  intro l1 l2 h
  induction h with
  | nil => intro pair hp; simp at hp
  | cons hab _ ih =>
      intro pair hp
      rcases List.mem_cons.mp hp with rfl | hp2
      · exact hab
      · exact ih pair hp2

/-!
## The claims
-/

/-- An arrival policy producing no arrivals at any round. -/
def emptyArrivals : Nat → Waiting := fun _ => []

/-- The scripted arrival policy of the single-person scenario: one person
`(1, 2)` at round 0, from the data store `{0: [(1, 2)]}`. -/
def scriptedOneArrival : Nat → Waiting :=
  fun r => fileArrivalsGenerate [(0, [(1, 2)])] (r : Int)

/-- A random oracle that always draws the highest value. -/
def constOracle1 : Nat → Nat → Int := fun _ _ => 1

/-- C6: after the disembark stage, for every elevator every passenger
whose target equals the current floor has been removed (no entry skipped
despite removal during the reversed traversal), the delivered counter has
grown once per removed passenger, each removed passenger's wait time has
been appended to the completed-times sequence, and the remaining
passengers keep their original relative order (they are the in-order
filter of the non-arrived passengers). -/
theorem c6_disembark_complete (s : SimState) :
    (handleLeavingState s).elevators =
      s.elevators.map (fun e =>
        { e with passengers :=
            e.passengers.filter (fun p => !(p.target == e.current_floor)) }) ∧
    (handleLeavingState s).total_completed =
      s.total_completed +
        (s.elevators.map (fun e =>
          (e.passengers.filter (fun p => p.target == e.current_floor)).length)).sum ∧
    (handleLeavingState s).times =
      s.times ++
        (s.elevators.map (fun e =>
          ((e.passengers.filter (fun p => p.target == e.current_floor)).reverse.map
            Person.wait_time))).flatten ∧
    (handleLeavingState s).waiting = s.waiting := by
  rw [handleLeavingState_spec]
  exact ⟨rfl, rfl, rfl, rfl⟩

/-- C3: the scripted single-arrival scenario.  With 2 floors, one elevator
of capacity 1, short-sighted dispatch, and a scripted source producing
exactly one person `(1, 2)` at round 0: construction of the scripted data
store succeeds; in round 0 the person boards immediately (the elevator is
already at floor 1) and the move decision, taken with the passenger
aboard, is Up; in round 1 the disembark stage delivers the person with
`wait_time = 1`; `run(2)` returns `total_people = 1`,
`people_completed = 1` and `min = max = avg = 1`. -/
theorem c3_scenario :
    fileArrivalsInit [[some 0, some 1, some 2]] = some [(0, [(1, 2)])] ∧
    generateArrivalsState (scriptedOneArrival 0) (simInit 2 1 1) =
      some ⟨[(1, [⟨1, 2, 0⟩]), (2, [])], [⟨[], 1, 1⟩], 1, 0, []⟩ ∧
    handleBoardingState
        (handleLeavingState ⟨[(1, [⟨1, 2, 0⟩]), (2, [])], [⟨[], 1, 1⟩], 1, 0, []⟩) =
      some ⟨[(1, []), (2, [])], [⟨[⟨1, 2, 0⟩], 1, 1⟩], 1, 0, []⟩ ∧
    shortSightedMoveElevators [⟨[⟨1, 2, 0⟩], 1, 1⟩] [(1, []), (2, [])] 2 =
      some [Direction.up] ∧
    runRounds scriptedOneArrival
        (Policy.move Policy.shortSighted) 2 0 1 (simInit 2 1 1) =
      some ⟨[(1, []), (2, [])], [⟨[⟨1, 2, 1⟩], 2, 1⟩], 1, 0, []⟩ ∧
    handleLeavingState ⟨[(1, []), (2, [])], [⟨[⟨1, 2, 1⟩], 2, 1⟩], 1, 0, []⟩ =
      ⟨[(1, []), (2, [])], [⟨[], 2, 1⟩], 1, 1, [1]⟩ ∧
    simRun 2 1 1 scriptedOneArrival
        (Policy.move Policy.shortSighted) 2 =
      some ⟨2, 1, 1, 1, 1, 1⟩ := by
  refine ⟨by decide, by decide, by decide, by decide, by decide, by decide,
    by decide⟩

/-- C5 counterexample: constructing the simulation with `numFloors = 1`
(< 2) does not raise any error.  `Simulation.__init__` performs no
validation: it returns the usual initial state, and the instance is even
usable — `run(1)` completes normally on it. -/
theorem c5_counterexample :
    simInit 1 1 1 = ⟨[(1, [])], [⟨[], 1, 1⟩], 0, 0, []⟩ ∧
    simRun 1 1 1 (fun _ => []) (Policy.move Policy.pushyPassenger) 1 =
      some ⟨1, 0, 0, -1, -1, -1⟩ := by
  exact ⟨by decide, by decide⟩

/-- C5 (amended): constructing a Simulation with `numFloors < 2` does not
raise; `numFloors ≥ 2` is only a documented precondition.  Construction
completes and produces the documented initial state: a registry entry for
every floor in `range(1, numFloors + 1)` (all empty), `numElevators`
empty elevators of the given capacity at floor 1, and zeroed statistics. -/
theorem c5_no_validation_amended (nf : Int) (ne : Nat) (cap : Int)
    (hnf : nf < 2) :
    keysOf (simInit nf ne cap).waiting = floorKeys nf ∧
    (∀ kv ∈ (simInit nf ne cap).waiting, kv.2 = []) ∧
    (simInit nf ne cap).elevators.length = ne ∧
    (∀ e ∈ (simInit nf ne cap).elevators, e = Elevator.init cap) ∧
    (simInit nf ne cap).total_people = 0 ∧
    (simInit nf ne cap).total_completed = 0 ∧
    (simInit nf ne cap).times = [] := by
  refine ⟨?_, ?_, ?_, ?_, rfl, rfl, rfl⟩
  · unfold simInit keysOf floorKeys
    rw [List.map_map]
    rfl
  · intro kv hkv
    unfold simInit at hkv
    simp only at hkv
    rcases List.mem_map.mp hkv with ⟨i, _, hie⟩
    rw [← hie]
  · unfold simInit
    simp
  · intro e he
    unfold simInit at he
    simp only at he
    exact List.eq_of_mem_replicate he

/-- C5 witness for the amended theorem at `numFloors = 0`. -/
theorem c5_no_validation_amended_witness :
    (0 : Int) < 2 ∧
    keysOf (simInit 0 2 3).waiting = floorKeys 0 ∧
    (simInit 0 2 3).elevators.length = 2 ∧
    (simInit 0 2 3).total_people = 0 ∧
    (simInit 0 2 3).total_completed = 0 ∧
    (simInit 0 2 3).times = [] :=
  ⟨by decide,
   (c5_no_validation_amended 0 2 3 (by decide)).1,
   (c5_no_validation_amended 0 2 3 (by decide)).2.2.1,
   (c5_no_validation_amended 0 2 3 (by decide)).2.2.2.2.1,
   (c5_no_validation_amended 0 2 3 (by decide)).2.2.2.2.2.1,
   (c5_no_validation_amended 0 2 3 (by decide)).2.2.2.2.2.2⟩

/-- C2 counterexample: with `maxFloor = 1` the random dispatch variant can
answer Up for an elevator standing at `maxFloor`.  The elevator list and
registry satisfy every range hypothesis of the claim (all floors, targets
and keys lie in `[1, 1]`), the elevator's floor equals `maxFloor`, and
`RandomAlgorithm.move_elevators` (draw = 1 in `randint(0, 1)`) returns
`[UP]` — because the code tests `current_floor == 1` before
`current_floor == max_floor`. -/
theorem c2_counterexample :
    1 ≤ (Elevator.init 1).current_floor ∧
    (Elevator.init 1).current_floor ≤ 1 ∧
    (Elevator.init 1).passengers = [] ∧
    keysOf [((1 : Int), ([] : List Person))] = [1] ∧
    (Elevator.init 1).current_floor = 1 ∧
    Policy.move (Policy.randomAlg constOracle1) 0 [Elevator.init 1]
        [(1, [])] 1 =
      some [Direction.up] := by
  refine ⟨by decide, by decide, by decide, by decide, by decide, by decide⟩

/-- C2 (amended): provided additionally `maxFloor ≥ 2`, each of the three
dispatch variants, queried on any elevator list and registry whose
elevator floors, aboard passenger targets and registry keys all lie in
`[1, maxFloor]`, never answers Down for an elevator at floor 1 and never
answers Up for an elevator at `maxFloor` (whenever it returns at all). -/
theorem c2_boundary_amended {p : Policy} {r : Nat} {es : List Elevator}
    {w : Waiting} {mf : Int} {ds : List Direction} (hmf : 2 ≤ mf)
    (hkeys : ∀ k ∈ keysOf w, 1 ≤ k ∧ k ≤ mf)
    (hnodup : (keysOf w).Nodup)
    (hfloors : ∀ e ∈ es, 1 ≤ e.current_floor ∧ e.current_floor ≤ mf)
    (htargets : ∀ e ∈ es, ∀ q ∈ e.passengers, 1 ≤ q.target ∧ q.target ≤ mf)
    (h : Policy.move p r es w mf = some ds) :
    ∀ pair ∈ es.zip ds,
      (pair.1.current_floor = 1 → pair.2 ≠ Direction.down) ∧
      (pair.1.current_floor = mf → pair.2 ≠ Direction.up) := by
  have hb := policy_move_boundary hmf hkeys
    (fun e he q hq => htargets e he q hq) h
  exact forall2_zip hb

/-- C2 witness: the amended boundary theorem applied to a pushy-passenger
query on a two-floor registry with one person waiting at floor 2,
instantiated at the first elevator-direction pair. -/
theorem c2_boundary_amended_witness :
    BoundaryOK 2 ⟨[], 1, 1⟩ Direction.up :=
  @c2_boundary_amended Policy.pushyPassenger 0 [⟨[], 1, 1⟩, ⟨[], 2, 1⟩]
    [(1, []), (2, [⟨2, 1, 0⟩])] 2 [Direction.up, Direction.stay] (by decide)
    (by decide) (by decide) (by decide) (by decide) (by decide)
    (⟨[], 1, 1⟩, Direction.up) (by decide)

/-- C7: short-sighted dispatch.  On any registry whose key set is exactly
`{1 .. maxFloor}`, the call succeeds and each empty elevator is directed
toward the nearest floor with waiting people (ties to the lower floor;
Stay when nobody waits anywhere), while each non-empty elevator is
directed toward the nearest passenger target under the same rule,
ignoring boarding order; in particular with waiting people exactly at
floors 3 and 7 and the elevator at floor 5 the chosen floor is 3. -/
theorem c7_shortsighted {es : List Elevator} {w : Waiting} {mf : Int}
    (hkeys : ∀ k : Int, k ∈ keysOf w ↔ 1 ≤ k ∧ k ≤ mf)
    (hnodup : (keysOf w).Nodup) :
    ∃ ds, shortSightedMoveElevators es w mf = some ds ∧
      List.Forall₂ (ShortSightedSpec w) es ds ∧
      closestWaitingFloor 5
        [(1, []), (2, []), (3, [⟨3, 7, 0⟩]), (4, []), (5, []), (6, []),
          (7, [⟨7, 1, 0⟩])] = some 3 := by
  have hsome : (shortSightedMoveElevators es w mf).isSome := by
    unfold shortSightedMoveElevators
    exact mapOpt_isSome (fun e _ => shortSightedOne_isSome w e)
  cases hd : shortSightedMoveElevators es w mf with
  | none => rw [hd] at hsome; simp at hsome
  | some ds =>
      refine ⟨ds, rfl, ?_, by decide⟩
      unfold shortSightedMoveElevators at hd
      exact forall2_imp_mem (mapOpt_forall2 hd)
        (fun e d _ hone => shortSightedOne_spec hone)

/-- C7 witness: a two-floor registry with one person waiting at floor 2,
one empty elevator at floor 1; its decision is Up and refines the spec,
and the 3-vs-7 tie from floor 5 resolves to 3. -/
theorem c7_shortsighted_witness :
    shortSightedMoveElevators [⟨[], 1, 1⟩] [(1, []), (2, [⟨2, 1, 0⟩])] 2 =
      some [Direction.up] ∧
    ShortSightedSpec [(1, []), (2, [⟨2, 1, 0⟩])] ⟨[], 1, 1⟩ Direction.up ∧
    closestWaitingFloor 5
      [(1, []), (2, []), (3, [⟨3, 7, 0⟩]), (4, []), (5, []), (6, []),
        (7, [⟨7, 1, 0⟩])] = some 3 := by
  obtain ⟨ds, h1, h2, h3⟩ :=
    @c7_shortsighted [⟨[], 1, 1⟩] [(1, []), (2, [⟨2, 1, 0⟩])] 2
      (by
        intro k
        simp [keysOf]
        omega)
      (by decide)
  have hds : ds = [Direction.up] := by
    have hcalc : shortSightedMoveElevators [⟨[], 1, 1⟩]
        [(1, []), (2, [⟨2, 1, 0⟩])] 2 = some [Direction.up] := by decide
    rw [hcalc] at h1
    injection h1 with he
    exact he.symm
  subst hds
  refine ⟨h1, ?_, h3⟩
  cases h2 with
  | cons hh _ => exact hh

/-- C8: pushy-passenger dispatch.  On any registry whose key set is
exactly `{1 .. maxFloor}` (so, non-empty for `maxFloor ≥ 1`), the call
succeeds without error and each empty elevator is directed toward the
lowest-numbered floor with at least one waiting person (Stay when nobody
waits anywhere), while each non-empty elevator is directed toward the
target of its earliest-boarded passenger — where the direction toward
floor F from floor C is Up if F > C, Down if F < C and Stay if F = C
(`specDirToward`). -/
theorem c8_pushy {es : List Elevator} {w : Waiting} {mf : Int}
    (hmf : 1 ≤ mf)
    (hkeys : ∀ k : Int, k ∈ keysOf w ↔ 1 ≤ k ∧ k ≤ mf)
    (hnodup : (keysOf w).Nodup) :
    ∃ ds, pushyMoveElevators es w mf = some ds ∧
      List.Forall₂ (PushySpec w) es ds := by
  have hw : w ≠ [] := by
    intro he
    have h1 : (1 : Int) ∈ keysOf w := (hkeys 1).mpr ⟨le_refl 1, hmf⟩
    rw [he] at h1
    simp [keysOf] at h1
  have hlowS := lowestFloorWithPeople_isSome hw
  cases hlow : lowestFloorWithPeople w with
  | none => rw [hlow] at hlowS; simp at hlowS
  | some lowest =>
      have hsome : (pushyMoveElevators es w mf).isSome := by
        unfold pushyMoveElevators
        rw [hlow]
        exact mapOpt_isSome (fun e _ => pushyOne_isSome _ lowest e)
      cases hd : pushyMoveElevators es w mf with
      | none => rw [hd] at hsome; simp at hsome
      | some ds =>
          refine ⟨ds, rfl, ?_⟩
          unfold pushyMoveElevators at hd
          rw [hlow] at hd
          simp only at hd
          exact forall2_imp_mem (mapOpt_forall2 hd)
            (fun e d _ hone => pushyOne_spec hlow hone)

/-- C8 witness: a two-floor registry with one person waiting at floor 2,
an empty elevator at floor 1 (sent Up toward floor 2) and a loaded
elevator at floor 2 whose first passenger targets floor 1 (sent Down). -/
theorem c8_pushy_witness :
    pushyMoveElevators [⟨[], 1, 1⟩, ⟨[⟨1, 1, 0⟩], 2, 1⟩]
        [(1, []), (2, [⟨2, 1, 0⟩])] 2 =
      some [Direction.up, Direction.down] ∧
    PushySpec [(1, []), (2, [⟨2, 1, 0⟩])] ⟨[], 1, 1⟩ Direction.up ∧
    PushySpec [(1, []), (2, [⟨2, 1, 0⟩])] ⟨[⟨1, 1, 0⟩], 2, 1⟩
      Direction.down := by
  obtain ⟨ds, h1, h2⟩ :=
    @c8_pushy [⟨[], 1, 1⟩, ⟨[⟨1, 1, 0⟩], 2, 1⟩]
      [(1, []), (2, [⟨2, 1, 0⟩])] 2 (by decide)
      (by
        intro k
        simp [keysOf]
        omega)
      (by decide)
  have hds : ds = [Direction.up, Direction.down] := by
    have hcalc : pushyMoveElevators [⟨[], 1, 1⟩, ⟨[⟨1, 1, 0⟩], 2, 1⟩]
        [(1, []), (2, [⟨2, 1, 0⟩])] 2 =
        some [Direction.up, Direction.down] := by decide
    rw [hcalc] at h1
    injection h1 with he
    exact he.symm
  subst hds
  refine ⟨h1, ?_, ?_⟩
  · cases h2 with
    | cons hh _ => exact hh
  · cases h2 with
    | cons _ htail =>
        cases htail with
        | cons hh2 _ => exact hh2

/-- C1 counterexample.  As stated, the claim fails without two extra
configuration hypotheses.  (1) With `numFloors = 1` (and the trivially
in-range empty arrival policy) the random variant can move the single
elevator Up out of the building: after the round-0 move stage its floor
is `2 > numFloors`.  (2) With `elevator_capacity = -1` the capacity bound
`len(passengers) ≤ max_capacity` is already false after the round-0
arrival stage (`0 ≤ -1` fails). -/
theorem c1_counterexample :
    ArrivalsOK 1 emptyArrivals ∧
    runRounds emptyArrivals (Policy.move (Policy.randomAlg constOracle1))
        1 0 0 (simInit 1 1 1) = some (simInit 1 1 1) ∧
    generateArrivalsState (emptyArrivals 0) (simInit 1 1 1) =
      some (simInit 1 1 1) ∧
    handleBoardingState (handleLeavingState (simInit 1 1 1)) =
      some (simInit 1 1 1) ∧
    moveElevatorsState (Policy.move (Policy.randomAlg constOracle1)) 0 1
        (simInit 1 1 1) = some ⟨[(1, [])], [⟨[], 2, 1⟩], 0, 0, []⟩ ∧
    ¬ ElevsInv 1 ⟨[(1, [])], [⟨[], 2, 1⟩], 0, 0, []⟩ ∧
    generateArrivalsState (emptyArrivals 0) (simInit 2 1 (-1)) =
      some (simInit 2 1 (-1)) ∧
    ¬ ElevsInv 2 (simInit 2 1 (-1)) :=
  ⟨fun _ kv hkv => absurd hkv (List.not_mem_nil kv), by decide, by decide,
    by decide, by decide, by decide, by decide, by decide⟩

/-- C1 (amended): provided additionally `numFloors ≥ 2` and a
non-negative elevator capacity, every run with one of the three dispatch
variants and an in-range arrival policy keeps, after every pipeline stage
of every round, `len(passengers) ≤ max_capacity` and
`1 ≤ current_floor ≤ numFloors` for every elevator: the invariant holds
at every reachable round boundary and after each of the five stages run
from it. -/
theorem c1_invariant_amended {nf : Int} {ne : Nat} {cap : Int} {p : Policy}
    {genArr : Nat → Waiting} (hnf : 2 ≤ nf) (hcap : 0 ≤ cap)
    (ha : ArrivalsOK nf genArr) (k : Nat) (s : SimState)
    (hreach : runRounds genArr (Policy.move p) nf 0 k (simInit nf ne cap) =
      some s) :
    ElevsInv nf s ∧
    ∀ s1, generateArrivalsState (genArr k) s = some s1 →
      ElevsInv nf s1 ∧
      ElevsInv nf (handleLeavingState s1) ∧
      ∀ s3, handleBoardingState (handleLeavingState s1) = some s3 →
        ElevsInv nf s3 ∧
        ∀ s4, moveElevatorsState (Policy.move p) k nf s3 = some s4 →
          ElevsInv nf s4 ∧ ElevsInv nf (increaseAllWaitTimes s4) := by
  have hfull : FullInv nf s :=
    fullInv_runRounds hnf ha k 0 (simInit nf ne cap) s hreach
      (fullInv_init ne hnf hcap)
  have elevsOf : ∀ s2 : SimState, FullInv nf s2 → ElevsInv nf s2 :=
    fun s2 hs2 e he => (hs2.2.2 e he).1
  refine ⟨elevsOf s hfull, ?_⟩
  intro s1 h1
  have hf1 : FullInv nf s1 := fullInv_generate ha h1 hfull
  have hf2 : FullInv nf (handleLeavingState s1) := fullInv_leaving hf1
  refine ⟨elevsOf s1 hf1, elevsOf _ hf2, ?_⟩
  intro s3 h3
  have hf3 : FullInv nf s3 := fullInv_boarding h3 hf2
  refine ⟨elevsOf s3 hf3, ?_⟩
  intro s4 h4
  have hf4 : FullInv nf s4 := fullInv_moving hnf h4 hf3
  exact ⟨elevsOf s4 hf4, elevsOf _ (fullInv_aging hf4)⟩

/-- C1 witness: the amended invariant theorem applied to a fresh two-floor
simulation with the pushy-passenger policy, no arrivals, at round 0,
instantiated at every pipeline stage of that round (each stage leaves the
state at `simInit 2 1 1` except aging, which is a no-op here too). -/
theorem c1_invariant_amended_witness :
    ElevsInv 2 (simInit 2 1 1) ∧
    ElevsInv 2 (handleLeavingState (simInit 2 1 1)) ∧
    ElevsInv 2 (increaseAllWaitTimes (simInit 2 1 1)) := by
  have h := @c1_invariant_amended 2 1 1 Policy.pushyPassenger emptyArrivals
    (by decide) (by decide)
    (fun _ kv hkv => absurd hkv (List.not_mem_nil kv)) 0
    (simInit 2 1 1) rfl
  have h1 := h.2 (simInit 2 1 1) (by decide)
  have h3 := h1.2.2 (simInit 2 1 1) (by decide)
  have h4 := h3.2 (simInit 2 1 1) (by decide)
  exact ⟨h.1, h1.2.1, h4.2⟩

/-- C4: the statistics record of any successful run has
`num_iterations = numRounds`; `total_people` equals the number of persons
produced by the arrival policy over the run's rounds; `people_completed`
equals the number of recorded completed wait-times (one per delivered
person); `max_time` / `min_time` are the maximum / minimum over the
recorded times and `avg_time` is their truncated integer mean; when no
time was recorded all three are the sentinel `-1`.  In particular a
1-round run with no arrivals returns `⟨1, 0, 0, -1, -1, -1⟩` with no
error. -/
theorem c4_statistics {nf : Int} {ne : Nat} {cap : Int}
    {genArr : Nat → Waiting}
    {moveFn : Nat → List Elevator → Waiting → Int → Option (List Direction)}
    {n : Nat} {stats : Stats}
    (h : simRun nf ne cap genArr moveFn n = some stats) :
    stats.num_iterations = n ∧
    stats.total_people =
      ((List.range n).map (fun j => countArrivals (genArr j))).sum ∧
    (∃ s1, runRounds genArr moveFn nf 0 n (simInit nf ne cap) = some s1 ∧
      stats.people_completed = s1.times.length ∧
      (s1.times = [] →
        stats.max_time = -1 ∧ stats.min_time = -1 ∧ stats.avg_time = -1) ∧
      (s1.times ≠ [] →
        stats.max_time ∈ s1.times ∧ (∀ t ∈ s1.times, t ≤ stats.max_time) ∧
        stats.min_time ∈ s1.times ∧ (∀ t ∈ s1.times, stats.min_time ≤ t) ∧
        stats.avg_time = Int.tdiv s1.times.sum (s1.times.length : Int))) ∧
    simRun 2 1 1 (fun _ => []) (Policy.move Policy.shortSighted) 1 =
      some ⟨1, 0, 0, -1, -1, -1⟩ := by
  unfold simRun at h
  cases hrun : runRounds genArr moveFn nf 0 n (simInit nf ne cap) with
  | none => rw [hrun] at h; simp at h
  | some s1 =>
      rw [hrun] at h
      simp only [Option.map_some', Option.some.injEq] at h
      subst h
      have hacc := runRounds_accounting n 0 (simInit nf ne cap) s1 hrun
      rcases hacc.2 with ⟨ts, hts, hc⟩
      have htimes : s1.times = ts := by
        rw [hts]
        rfl
      have hcomp : s1.total_completed = s1.times.length := by
        rw [htimes, hc]
        simp [simInit]
      refine ⟨rfl, ?_, ⟨s1, rfl, hcomp, ?_, ?_⟩, by decide⟩
      · have hfun : (fun j => countArrivals (genArr (0 + j)))
            = fun j => countArrivals (genArr j) := by
          funext j
          rw [Nat.zero_add]
        have hpl : s1.total_people =
            ((List.range n).map (fun j => countArrivals (genArr j))).sum := by
          rw [hacc.1, hfun]
          simp [simInit]
        exact hpl
      · intro he
        simp [calculateStats, he]
      · intro hne
        have hie : s1.times.isEmpty = false := by
          cases hts2 : s1.times with
          | nil => exact absurd hts2 hne
          | cons a as => rfl
        have hmax := maxL_spec hne
        have hmin := minL_spec hne
        have hmaxeq : (calculateStats n s1).max_time = maxL s1.times := by
          simp [calculateStats, hie]
        have hmineq : (calculateStats n s1).min_time = minL s1.times := by
          simp [calculateStats, hie]
        have havgeq : (calculateStats n s1).avg_time =
            Int.tdiv s1.times.sum (s1.times.length : Int) := by
          simp [calculateStats, hie]
        rw [hmaxeq, hmineq, havgeq]
        exact ⟨hmax.1, hmax.2, hmin.1, hmin.2, rfl⟩

/-- C4 witness: the statistics theorem applied to the empty 1-round run
(no arrival ever, short-sighted dispatch). -/
theorem c4_statistics_witness :
    (⟨1, 0, 0, -1, -1, -1⟩ : Stats).num_iterations = 1 ∧
    simRun 2 1 1 emptyArrivals (Policy.move Policy.shortSighted) 1 =
      some ⟨1, 0, 0, -1, -1, -1⟩ := by
  have h := @c4_statistics 2 1 1 emptyArrivals
    (Policy.move Policy.shortSighted) 1 ⟨1, 0, 0, -1, -1, -1⟩ (by decide)
  exact ⟨h.1, h.2.2.2⟩

/-- Everything in a dict built by `buildArrivalsDict` is a freshly
constructed `Person` with `wait_time = 0`. -/
theorem buildArrivalsDict_fresh_aux :
    ∀ (info : List (Int × Int)) (acc : Waiting),
      (∀ q, inWaiting acc q → q.wait_time = 0) →
      ∀ q, inWaiting (info.foldl
        (fun acc2 st =>
          let p : Person := { start := st.1, target := st.2, wait_time := 0 }
          if (lookupFloor acc2 st.1).isSome then appendAt acc2 st.1 p
          else acc2 ++ [(st.1, [p])]) acc) q → q.wait_time = 0 := by
  intro info
  induction info with
  | nil => intro acc hacc q hq; exact hacc q hq
  | cons st rest ih =>
      intro acc hacc q hq
      rw [List.foldl_cons] at hq
      refine ih _ ?_ q hq
      intro q2 hq2
      by_cases hl : (lookupFloor acc st.1).isSome
      · rw [if_pos hl] at hq2
        rcases inWaiting_appendAt hq2 with h1 | h1
        · exact hacc q2 h1
        · rw [h1]
      · rw [if_neg hl] at hq2
        rcases hq2 with ⟨kv, hkv, hqm⟩
        rcases List.mem_append.mp hkv with h1 | h1
        · exact hacc q2 ⟨kv, h1, hqm⟩
        · rw [List.mem_singleton.mp h1] at hqm
          rw [List.mem_singleton.mp hqm]

/-- `FileArrivals.generate` only ever produces fresh people
(`wait_time = 0`), whatever the data store. -/
theorem fileArrivalsGenerate_fresh (store : List (Int × List (Int × Int))) :
    ArrivalsFresh (fun r => fileArrivalsGenerate store (r : Int)) := by
  intro r kv hkv p hp
  have hkv2 : kv ∈ fileArrivalsGenerate store (r : Int) := hkv
  unfold fileArrivalsGenerate at hkv2
  cases hsl : storeLookup store (r : Int) with
  | none => rw [hsl] at hkv2; simp at hkv2
  | some info =>
      rw [hsl] at hkv2
      exact buildArrivalsDict_fresh_aux info []
        (fun q hq => by rcases hq with ⟨kv3, hkv3, _⟩; simp at hkv3)
        p ⟨kv, hkv2, hp⟩

/-- C10 (implicit): because disembarking precedes boarding within a round
and the aging stage runs at the end of every round, every recorded
completed wait-time is at least 1, so the returned `min_time` is either
the sentinel `-1` or at least 1.  The hypothesis reflects that both
arrival policies construct every `Person` with `wait_time = 0`
(`Person.__init__`); the dispatch function is arbitrary. -/
theorem c10_min_wait {nf : Int} {ne : Nat} {cap : Int}
    {genArr : Nat → Waiting}
    {moveFn : Nat → List Elevator → Waiting → Int → Option (List Direction)}
    (hfresh : ArrivalsFresh genArr) :
    (∀ (k : Nat) (s : SimState),
      runRounds genArr moveFn nf 0 k (simInit nf ne cap) = some s →
      ∀ t ∈ s.times, 1 ≤ t) ∧
    (∀ (n : Nat) (stats : Stats),
      simRun nf ne cap genArr moveFn n = some stats →
      stats.min_time = -1 ∨ 1 ≤ stats.min_time) := by
  have hreach : ∀ (k : Nat) (s : SimState),
      runRounds genArr moveFn nf 0 k (simInit nf ne cap) = some s →
      ∀ t ∈ s.times, 1 ≤ t := by
    intro k s hrun t ht
    have hw : WaitInv s :=
      waitInv_runRounds hfresh k 0 (simInit nf ne cap) s hrun
        (waitInv_init nf ne cap)
    exact hw.2.2 t ht
  refine ⟨hreach, ?_⟩
  intro n stats h
  unfold simRun at h
  cases hrun : runRounds genArr moveFn nf 0 n (simInit nf ne cap) with
  | none => rw [hrun] at h; simp at h
  | some s1 =>
      rw [hrun] at h
      simp only [Option.map_some', Option.some.injEq] at h
      subst h
      cases hts : s1.times with
      | nil =>
          left
          simp [calculateStats, hts]
      | cons t rest =>
          right
          have hne : s1.times ≠ [] := by
            rw [hts]
            simp
          have hmineq : (calculateStats n s1).min_time = minL s1.times := by
            have hie : s1.times.isEmpty = false := by
              rw [hts]
              rfl
            simp [calculateStats, hie]
          rw [hmineq]
          have hmin := minL_spec hne
          exact hreach n s1 hrun (minL s1.times) hmin.1

/-- C10 witness: in the single-arrival scripted scenario the recorded
times after two rounds are `[1]` — the theorem instantiated at that run
bounds the recorded time `1` — and the returned `min_time` is 1, not the
sentinel. -/
theorem c10_min_wait_witness :
    (1 : Int) ≤ 1 ∧
    ((⟨2, 1, 1, 1, 1, 1⟩ : Stats).min_time = -1 ∨
      1 ≤ (⟨2, 1, 1, 1, 1, 1⟩ : Stats).min_time) :=
  ⟨(@c10_min_wait 2 1 1 scriptedOneArrival
      (Policy.move Policy.shortSighted)
      (fileArrivalsGenerate_fresh [(0, [(1, 2)])])).1 2
    ⟨[(1, []), (2, [])], [⟨[], 2, 1⟩], 1, 1, [1]⟩ (by decide) 1 (by decide),
   (@c10_min_wait 2 1 1 scriptedOneArrival
      (Policy.move Policy.shortSighted)
      (fileArrivalsGenerate_fresh [(0, [(1, 2)])])).2 2 ⟨2, 1, 1, 1, 1, 1⟩
    (by decide)⟩

/-- C9: `FileArrivals` construction fails (raises, i.e. `none`) whenever
the source holds a non-integer field or a row whose count of fields after
the round-number key is odd; on a well-formed source construction
succeeds and `generate` answers the empty dict, without error, for every
round number that no source row carries. -/
theorem c9_file_arrivals :
    (∀ source : List (List Token),
      (∃ row ∈ source, (none : Token) ∈ row) →
      fileArrivalsInit source = none) ∧
    (∀ source : List (List Token),
      (∃ row ∈ source, (row.length - 1) % 2 = 1) →
      fileArrivalsInit source = none) ∧
    (∀ source : List (List Token), WellFormedSource source →
      ∃ store, fileArrivalsInit source = some store ∧
        ∀ r : Int, (∀ row ∈ source, ¬ RowKey row r) →
          fileArrivalsGenerate store r = []) := by
  refine ⟨?_, ?_, ?_⟩
  · rintro source ⟨row, hrow, hbad⟩
    rw [fileArrivalsInit_eq_fold]
    exact foldlM_none_of_mem hrow (rowStep_none_of_badToken hbad) []
  · rintro source ⟨row, hrow, hodd⟩
    rw [fileArrivalsInit_eq_fold]
    exact foldlM_none_of_mem hrow (rowStep_none_of_odd hodd) []
  · intro source hwf
    have hs := fileArrivalsInit_isSome hwf
    cases hinit : fileArrivalsInit source with
    | none => rw [hinit] at hs; simp at hs
    | some store =>
        refine ⟨store, rfl, ?_⟩
        intro r habsent
        exact fileArrivalsGenerate_absent hinit habsent

/-- C9 witness: a bad-token source and an odd-row source both fail; the
well-formed one-row source constructs and answers `[]` for round 7. -/
theorem c9_file_arrivals_witness :
    fileArrivalsInit [[some 3, none]] = none ∧
    fileArrivalsInit [[some 0, some 1]] = none ∧
    fileArrivalsGenerate [(0, [(1, 2)])] 7 = [] := by
  refine ⟨?_, ?_, ?_⟩
  · exact c9_file_arrivals.1 [[some 3, none]]
      ⟨[some 3, none], by simp, by simp⟩
  · exact c9_file_arrivals.2.1 [[some 0, some 1]]
      ⟨[some 0, some 1], by simp, by decide⟩
  · rcases c9_file_arrivals.2.2 [[some 0, some 1, some 2]]
        (by
          intro row hrow
          rw [List.mem_singleton.mp hrow]
          refine ⟨by simp, by decide, by decide⟩)
      with ⟨store, h1, h2⟩
    have hstore : store = [(0, [(1, 2)])] := by
      have hcalc : fileArrivalsInit [[some 0, some 1, some 2]] =
          some [(0, [(1, 2)])] := by decide
      rw [hcalc] at h1
      injection h1 with he
      exact he.symm
    subst hstore
    refine h2 7 ?_
    intro row hrow
    rw [List.mem_singleton.mp hrow]
    rintro ⟨clean, hp, hh⟩
    have hpe : parseRow [some 0, some 1, some 2] = some [0, 1, 2] := by decide
    rw [hpe] at hp
    injection hp with hp
    rw [← hp] at hh
    simp at hh
